import Mathlib

/-!
Verification of the request-dispatch layer of `src/services/groq.ts`:
the per-model queue with rate-limit tracking (`processQueue`), the retry
logic of `makeRequest`/`executeRequest`, the backoff delay computation
(`calculateDelay`, `parseRetryAfter`), the JSON response cleanup chain,
and the outbound message truncation.

Modelling conventions: JavaScript strings are `List Char`; machine floats
are modelled as rational numbers (with a real-valued mirror where an
expectation is stated as an integral); `Date.now()` timestamps are integers
(milliseconds).  Fallible computations return `Option`/`Except`.
-/

/-! ### Retry accounting for `executeRequest` / `makeRequest` (groq.ts lines 348-441)

When every attempt fails with HTTP 429, `executeRequest attempt` performs one
HTTP attempt; if `attempt >= maxRetries` it throws, otherwise it sleeps and
recurses with `attempt + 1`.  The queued closure built by `makeRequest`
(lines 399-440) catches the error and, when `maxRetries > 0`, calls
`makeRequest` again with `maxRetries - 1`, otherwise it rejects the caller
promise.  The functions below count the HTTP attempts made and give the final
outcome of the caller promise, in the scenario where every attempt receives
HTTP 429. -/

/-- Model of `GroqService.calculateDelay` (groq.ts lines 117-122):
`baseDelay = initialDelay * 2^attempt`, `jitter = u * 0.5 * baseDelay` for
`u = Math.random()`, result capped at 60000 ms. -/
def calculateDelay (attempt : Nat) (initialDelay u : ℚ) : ℚ :=
  min (initialDelay * 2 ^ attempt + u * (1/2) * (initialDelay * 2 ^ attempt)) 60000

/-- Real-valued mirror of `calculateDelay`, used to express its expected value
over the uniform jitter as an interval integral. -/
noncomputable def calculateDelayR (attempt : Nat) (initialDelay u : ℝ) : ℝ :=
  min (initialDelay * 2 ^ attempt + u * (1/2) * (initialDelay * 2 ^ attempt)) 60000

/-- Expected value of `calculateDelay` over the uniform jitter `u ∈ [0,1)`. -/
noncomputable def expectedDelay (attempt : Nat) (initialDelay : ℝ) : ℝ :=
  ∫ u in (0:ℝ)..1, calculateDelayR attempt initialDelay u

/-- Classification of the `retry-after` response header string as consumed by
`parseRetryAfter` (groq.ts lines 100-115): absent, a digit string (seconds),
an HTTP date (modelled by its epoch-milliseconds value), or anything else. -/
inductive RetryAfterHeader where
  | seconds (n : Nat)
  | httpDate (t : ℚ)
  | malformed
  deriving DecidableEq

/-- Model of `GroqService.parseRetryAfter` (groq.ts lines 100-115): a missing
header yields the 5000 ms default; a digit string is seconds, converted to
milliseconds; an HTTP date yields `date - Date.now()`; anything else yields
the 5000 ms default. -/
def parseRetryAfter (h : Option RetryAfterHeader) (now : ℚ) : ℚ :=
  match h with
  | none => 5000
  | some (RetryAfterHeader.seconds n) => n * 1000
  | some (RetryAfterHeader.httpDate t) => t - now
  | some RetryAfterHeader.malformed => 5000

/-- Delay chosen by the HTTP-429 handler of `executeRequest` (groq.ts lines
350-384).  `errorBodyParses` is false exactly when `JSON.parse(error.error)`
throws inside the `try` block (in which case `retryAfter` keeps its initial
value 0); otherwise `retryAfter` is `parseRetryAfter` on the `retry-after`
header, maxed with any `try again in Xs` hint (`msgHintSecs`, in seconds)
parsed from the error message.  The delay is `retryAfter` when positive, else
`calculateDelay attempt initialDelay u`. -/
def rateLimit429Delay (errorBodyParses : Bool) (h : Option RetryAfterHeader)
    (msgHintSecs : Option ℚ) (now : ℚ) (attempt : Nat) (initialDelay u : ℚ) : ℚ :=
  let retryAfter : ℚ :=
    if errorBodyParses then
      match msgHintSecs with
      | some s => max (parseRetryAfter h now) (s * 1000)
      | none => parseRetryAfter h now
    else 0
  if retryAfter > 0 then retryAfter else calculateDelay attempt initialDelay u

/-! ### The per-model dispatcher (groq.ts lines 39-96 and 399-440)

A small-step model of the cooperative (event-loop) execution of `processQueue`
together with the queued closures pushed by `makeRequest`.  The shared mutable
`RateLimitState` of one model is the record `Sys` below, extended with the set
of outstanding asynchronous completions (`pending`) and an event trace.

JavaScript semantics captured by the model: calling an `async` function runs
its body synchronously up to the first `await`; an `await` suspends the caller
and registers a continuation; `setTimeout` and the HTTP call of a closure are
external events whose completions resume those continuations.  Each queued
closure is modelled on its success path: it synchronously starts its HTTP
request (`Ev.issue`), suspends, and when the HTTP response arrives it applies
the header-free quota update of `executeRequest` (groq.ts line 277,
`remaining = remaining > 0 ? remaining - 1 : 0`), resolves, and runs its
`finally` block (groq.ts lines 427-433): `processing := false` and, if the
queue is non-empty, a synchronous re-entry into `processQueue`.  Afterwards
the `processQueue` iteration that awaited the closure resumes: it decrements
`remaining` (groq.ts line 86, traced as `Ev.decrement`) and re-checks the
`while` condition.  The environment script completes outstanding events in
FIFO order; completing a timer advances the clock by its duration. -/

/-- Observable events of the dispatcher model: a request is enqueued, its HTTP
call is started, its HTTP call completes, the loop decrement of `remaining`
(groq.ts line 86) runs, the rate-limit sleep of groq.ts lines 74-79 starts
(with its duration), or `queue.shift()` was executed on an empty queue. -/
inductive Ev where
  | enqueue (i : Nat)
  | issue (i : Nat)
  | complete (i : Nat)
  | decrement
  | rateWait (d : Int)
  | crash
  deriving DecidableEq

/-- Continuation points of a suspended `processQueue` activation: after the
100 ms inter-request sleep (groq.ts line 90) the `while` condition is
re-checked; after the rate-limit sleep (groq.ts line 78) control falls through
directly to `queue.shift()`. -/
inductive Kont where
  | afterSleep
  | afterRateSleep
  deriving DecidableEq

/-- An outstanding asynchronous completion: the in-flight HTTP request of
queued closure `i`, or a sleeping `setTimeout` of duration `d` whose
completion resumes continuation `k`. -/
inductive Pending where
  | http (i : Nat)
  | timer (d : Int) (k : Kont)
  deriving DecidableEq

/-- The shared state of one model's dispatcher (`RateLimitState`, groq.ts
lines 40-45) together with the clock, the outstanding completions and the
event trace. -/
structure Sys where
  remaining : Int
  resetAt : Int
  now : Int
  queue : List Nat
  processing : Bool
  pending : List Pending
  trace : List Ev
  deriving DecidableEq

/-- The `queue.shift(); await request()` step of the `processQueue` loop
(groq.ts lines 82-83): the closure at the head of the queue is removed and
called; it synchronously starts its HTTP request and suspends.  A shift on an
empty queue calls `undefined` (a TypeError), traced as `Ev.crash`. -/
def shiftAndCall (s : Sys) : Sys :=
  match s.queue with
  | [] => { s with trace := s.trace ++ [Ev.crash] }
  | i :: rest =>
    { s with queue := rest,
             pending := s.pending ++ [Pending.http i],
             trace := s.trace ++ [Ev.issue i] }

/-- One synchronous pass through the `while` loop of `processQueue` (groq.ts
lines 71-92), from the loop condition up to the first suspension: if the queue
is empty the loop exits and the `finally` clears `processing`; else if
`now < resetAt && remaining <= 0` the activation starts the rate-limit sleep
of `resetAt - now + 1000` ms and suspends; otherwise it shifts and calls the
next closure. -/
def loopStep (s : Sys) : Sys :=
  match s.queue with
  | [] => { s with processing := false }
  | _ :: _ =>
    if s.now < s.resetAt ∧ s.remaining ≤ 0 then
      let d := s.resetAt - s.now + 1000
      { s with pending := s.pending ++ [Pending.timer d Kont.afterRateSleep],
               trace := s.trace ++ [Ev.rateWait d] }
    else shiftAndCall s

/-- Entry of `processQueue` (groq.ts lines 64-68): return immediately if
already processing or the queue is empty, otherwise set `processing := true`
and run the loop synchronously up to its first suspension. -/
def processQueueStart (s : Sys) : Sys :=
  if s.processing ∨ s.queue = [] then s
  else loopStep { s with processing := true }

/-- Resumption of the `processQueue` iteration whose awaited closure just
resolved (groq.ts lines 85-91): decrement `remaining` (clamped at 0, traced as
`Ev.decrement`); if the queue is non-empty start the 100 ms inter-request
sleep, else re-check the `while` condition (which exits the loop). -/
def afterClosure (s : Sys) : Sys :=
  let s1 := { s with remaining := max 0 (s.remaining - 1),
                     trace := s.trace ++ [Ev.decrement] }
  if s1.queue = [] then loopStep s1
  else { s1 with pending := s1.pending ++ [Pending.timer 100 Kont.afterSleep] }

/-- Resume a suspended `processQueue` activation at continuation `k`. -/
def resumeKont (k : Kont) (s : Sys) : Sys :=
  match k with
  | Kont.afterSleep => loopStep s
  | Kont.afterRateSleep => shiftAndCall s

/-- Completion of the oldest outstanding asynchronous event.  For an HTTP
completion of closure `i`: the closure resumes, applies the header-free quota
update of groq.ts line 277, and runs its `finally` (groq.ts lines 427-433),
which clears `processing` and synchronously re-enters `processQueue` when the
queue is non-empty; the closure promise then resolves, resuming the awaiting
`processQueue` iteration (`afterClosure`).  For a timer: the clock advances by
its duration and the sleeping activation resumes. -/
def completeEvent (s : Sys) : Sys :=
  match s.pending with
  | [] => s
  | Pending.http i :: rest =>
    let s1 := { s with pending := rest,
                       remaining := if s.remaining > 0 then s.remaining - 1 else 0,
                       trace := s.trace ++ [Ev.complete i],
                       processing := false }
    let s2 := if s1.queue = [] then s1 else processQueueStart s1
    afterClosure s2
  | Pending.timer d k :: rest =>
    resumeKont k { s with pending := rest, now := s.now + d }

/-- Environment actions: a caller invokes `makeRequest`, which pushes a new
closure and calls `processQueue` when not already processing (groq.ts lines
400-439), or the environment completes the oldest outstanding event. -/
inductive Act where
  | enqueue (i : Nat)
  | completeNext
  deriving DecidableEq

/-- One environment action applied to the system. -/
def dispatchStep (s : Sys) (a : Act) : Sys :=
  match a with
  | Act.enqueue i =>
    processQueueStart { s with queue := s.queue ++ [i],
                               trace := s.trace ++ [Ev.enqueue i] }
  | Act.completeNext => completeEvent s

/-- Run a script of environment actions from a starting state. -/
def dispatchRun (s : Sys) (script : List Act) : Sys :=
  script.foldl dispatchStep s

/-- Initial dispatcher state for a fresh model with `remaining` quota `r` and
reset timestamp `resetAt` at clock `now` (groq.ts lines 51-61 create the state
with an empty queue and `processing = false`). -/
def initSys (r resetAt now : Int) : Sys :=
  { remaining := r, resetAt := resetAt, now := now, queue := [],
    processing := false, pending := [], trace := [] }

/-- The two-request scenario of the specification: two requests for the same
model are queued with `remaining = 1`, and each HTTP call completes in order. -/
def twoReqScenario : Sys :=
  dispatchRun (initSys 1 0 0)
    [Act.enqueue 0, Act.enqueue 1, Act.completeNext, Act.completeNext]

/-- A three-request scenario: two requests are queued, the first completes,
then a third request arrives before the second completes. -/
def threeReqScenario : Sys :=
  dispatchRun (initSys 5 0 0)
    [Act.enqueue 0, Act.enqueue 1, Act.completeNext, Act.enqueue 2]

/-! ### Outbound message construction (groq.ts lines 140-270)

The body of `executeRequest` before the HTTP call: JSON-instruction injection
into the first system message (lines 146-159), per-content truncation to 8000
characters (lines 161-180), conversion to the SDK message format (lines
183-259), and the `max_tokens` cap (line 265). -/

/-- A content part of a multimodal message (`ChatCompletionContentPartText` /
`ChatCompletionContentPartImage`). -/
inductive GPart where
  | text (t : List Char)
  | image (u : List Char)
  deriving DecidableEq

/-- Content of a `GroqMessage`: a plain string or a list of parts. -/
inductive GContent where
  | str (s : List Char)
  | parts (ps : List GPart)
  deriving DecidableEq

/-- Message roles of a `GroqMessage` (groq.ts lines 33-37). -/
inductive GRole where
  | system
  | user
  | assistant
  | function
  deriving DecidableEq

/-- A `GroqMessage` (groq.ts lines 33-37). -/
structure GMsg where
  role : GRole
  content : GContent
  name : Option (List Char)
  deriving DecidableEq

/-- The instruction appended to system message text when `requireJson` is set
(groq.ts lines 156 and 197). -/
def jsonInstr : List Char := " Always respond with a valid JSON object.".toList

/-- Lines 146-159 of groq.ts: when `requireJson` is set and the first message
has role `system`, a string content gets the JSON instruction appended, and a
parts content is rebuilt as one text part joining all text parts with newlines
followed by the non-text parts. -/
def addJsonInstruction (requireJson : Bool) (msgs : List GMsg) : List GMsg :=
  match requireJson, msgs with
  | true, m :: rest =>
    match m.role with
    | GRole.system =>
      let newContent :=
        match m.content with
        | GContent.str s => GContent.str (s ++ jsonInstr)
        | GContent.parts ps =>
          GContent.parts
            (GPart.text (List.intercalate ['\n']
                (ps.filterMap fun p =>
                  match p with
                  | GPart.text t => some t
                  | GPart.image _ => none)) ::
              ps.filter fun p =>
                match p with
                | GPart.text _ => false
                | GPart.image _ => true)
      { m with content := newContent } :: rest
    | _ => msgs
  | _, _ => msgs

/-- Lines 161-180 of groq.ts: string content and text parts are truncated to
their first 8000 characters (`substring(0, 8000)`); image parts are kept. -/
def optimizeMsg (m : GMsg) : GMsg :=
  { m with content :=
      match m.content with
      | GContent.str s => GContent.str (s.take 8000)
      | GContent.parts ps =>
        GContent.parts (ps.map fun p =>
          match p with
          | GPart.text t => GPart.text (t.take 8000)
          | GPart.image u => GPart.image u) }

/-- Content of a converted SDK message: a string, `null` (function role with
parts content), an all-text part list, or an all-image part list. -/
inductive OutContent where
  | str (s : List Char)
  | nullContent
  | texts (ts : List (List Char))
  | images (us : List (List Char))
  deriving DecidableEq

/-- A converted SDK message. -/
structure OutMsg where
  role : GRole
  content : OutContent
  name : Option (List Char)
  deriving DecidableEq

/-- Lines 199-229 of groq.ts: conversion of a parts content.  It becomes an
all-text list when every part is text, an all-image list when every part is
an image, the text parts only when mixed, and the empty string for an empty
list. -/
def convertParts (ps : List GPart) : OutContent :=
  let hasText := ps.any fun p =>
    match p with
    | GPart.text _ => true
    | GPart.image _ => false
  let hasImage := ps.any fun p =>
    match p with
    | GPart.text _ => false
    | GPart.image _ => true
  if hasText ∧ ¬hasImage then
    OutContent.texts (ps.map fun p =>
      match p with
      | GPart.text t => t
      | GPart.image _ => [])
  else if hasImage ∧ ¬hasText then
    OutContent.images (ps.map fun p =>
      match p with
      | GPart.text _ => []
      | GPart.image u => u)
  else if hasText ∧ hasImage then
    OutContent.texts (ps.filterMap fun p =>
      match p with
      | GPart.text t => some t
      | GPart.image _ => none)
  else OutContent.str []

/-- Lines 232-258 of groq.ts: system and assistant messages whose content is
not a string or an all-text list fall back to the empty string. -/
def fixNonTextContent (r : GRole) (c : OutContent) : OutContent :=
  match r, c with
  | GRole.system, OutContent.images _ => OutContent.str []
  | GRole.assistant, OutContent.images _ => OutContent.str []
  | _, c => c

/-- Lines 183-259 of groq.ts: conversion of one (already optimized) message to
the SDK format.  Function-role messages keep string content and turn parts
content into `null`.  For other roles, string content gets the JSON
instruction appended when `requireJson` and the role is `system`; parts
content is converted by `convertParts` and then adjusted by
`fixNonTextContent`. -/
def convertMsg (requireJson : Bool) (m : GMsg) : OutMsg :=
  match m.role with
  | GRole.function =>
    { role := GRole.function,
      content :=
        match m.content with
        | GContent.str s => OutContent.str s
        | GContent.parts _ => OutContent.nullContent,
      name := some (m.name.getD []) }
  | r =>
    let content : OutContent :=
      match m.content with
      | GContent.str s =>
        OutContent.str (s ++ if requireJson ∧ r = GRole.system then jsonInstr else [])
      | GContent.parts ps => convertParts ps
    { role := r, content := fixNonTextContent r content, name := none }

/-- The full outbound message pipeline of `executeRequest` (groq.ts lines
143-259): JSON-instruction injection, truncation, then SDK conversion. -/
def outboundMessages (requireJson : Bool) (msgs : List GMsg) : List OutMsg :=
  ((addJsonInstruction requireJson msgs).map optimizeMsg).map (convertMsg requireJson)

/-- The `max_tokens` value sent upstream (groq.ts line 265):
`Math.min(maxTokens, 4000)`. -/
def sentMaxTokens (maxTokens : Nat) : Nat := min maxTokens 4000

/-- The lengths of the string and text-part contents of a converted message
(the text payload sizes sent upstream). -/
def outTextLens (m : OutMsg) : List Nat :=
  match m.content with
  | OutContent.str s => [s.length]
  | OutContent.nullContent => []
  | OutContent.texts ts => ts.map List.length
  | OutContent.images _ => []

/-! ### JSON values, `JSON.stringify` and `JSON.parse`

The JSON repair chain of `makeRequest` (groq.ts lines 288-346) is built on the
runtime functions `JSON.parse` and `JSON.stringify`.  They are modelled below
over a JSON value type whose numbers are integers (fractional and exponent
number forms, lone surrogates and duplicate-key last-wins behaviour are out of
scope of this model) and whose strings and keys are `List Char`. -/

/-- Left and right curly brace characters. -/
def lb : Char := '\x7b'

/-- Right curly brace character. -/
def rb : Char := '\x7d'

/-- Backquote character (Markdown fence marker). -/
def bq : Char := '\x60'

/-- Single-quote character. -/
def squote : Char := '\x27'

/-- JSON values. -/
inductive JVal where
  | null
  | bool (b : Bool)
  | num (n : Int)
  | str (s : List Char)
  | arr (elems : List JVal)
  | obj (fields : List (List Char × JVal))

/-- Decimal digit character for `d < 10`. -/
def digitChar (d : Nat) : Char := Char.ofNat (48 + d)

/-- Decimal digit characters of a natural number, most significant first. -/
def natDigits (n : Nat) : List Char :=
  if n = 0 then ['0'] else (Nat.digits 10 n).reverse.map digitChar

/-- Decimal rendering of an integer. -/
def intChars (n : Int) : List Char :=
  if n < 0 then '-' :: natDigits n.natAbs else natDigits n.natAbs

/-- Lowercase hexadecimal digit character for `d < 16`. -/
def hexDigit (d : Nat) : Char :=
  if d < 10 then Char.ofNat (48 + d) else Char.ofNat (87 + d)

/-- `JSON.stringify` escaping of one string character: `"` and `\` get a
backslash; backspace, tab, newline, form feed and carriage return use their
short forms; other control characters below `0x20` use `\u00XX`; everything
else is emitted as is. -/
def escapeChar (c : Char) : List Char :=
  if c = '"' then ['\\', '"']
  else if c = '\\' then ['\\', '\\']
  else if c = '\x08' then ['\\', 'b']
  else if c = '\t' then ['\\', 't']
  else if c = '\n' then ['\\', 'n']
  else if c = '\x0c' then ['\\', 'f']
  else if c = '\r' then ['\\', 'r']
  else if c.toNat < 32 then
    ['\\', 'u', '0', '0', hexDigit (c.toNat / 16), hexDigit (c.toNat % 16)]
  else [c]

/-- `JSON.stringify` escaping of a string body. -/
def escapeStr (s : List Char) : List Char :=
  s.foldr (fun c acc => escapeChar c ++ acc) []

mutual
/-- Model of `JSON.stringify` (compact form, no indentation): the canonical
text of a JSON value. -/
def render : JVal → List Char
  | JVal.null => ['n', 'u', 'l', 'l']
  | JVal.bool true => ['t', 'r', 'u', 'e']
  | JVal.bool false => ['f', 'a', 'l', 's', 'e']
  | JVal.num n => intChars n
  | JVal.str s => '"' :: (escapeStr s ++ ['"'])
  | JVal.arr es => '[' :: (renderElems es ++ [']'])
  | JVal.obj fs => lb :: (renderFields fs ++ [rb])

/-- Comma-separated renderings of array elements. -/
def renderElems : List JVal → List Char
  | [] => []
  | [v] => render v
  | v :: vs => render v ++ ',' :: renderElems vs

/-- Comma-separated renderings of object members. -/
def renderFields : List (List Char × JVal) → List Char
  | [] => []
  | [(k, v)] => '"' :: (escapeStr k ++ '"' :: ':' :: render v)
  | (k, v) :: fs => ('"' :: (escapeStr k ++ '"' :: ':' :: render v)) ++ ',' :: renderFields fs
end

/-- JSON whitespace characters (as skipped by `JSON.parse`). -/
def isWsJson (c : Char) : Bool := c = ' ' ∨ c = '\t' ∨ c = '\n' ∨ c = '\r'

/-- Skip JSON whitespace. -/
def skipWs (l : List Char) : List Char := l.dropWhile fun c => isWsJson c

/-- Decimal digit predicate. -/
def isDigitChar (c : Char) : Bool := 48 ≤ c.toNat ∧ c.toNat ≤ 57

/-- Numeric value of a decimal digit character. -/
def digitVal (c : Char) : Nat := c.toNat - 48

/-- Numeric value of a string of decimal digit characters. -/
def digitsToNat (ds : List Char) : Nat :=
  ds.foldl (fun a c => a * 10 + digitVal c) 0

/-- Hexadecimal digit predicate (both cases). -/
def isHexDigit (c : Char) : Bool :=
  isDigitChar c ∨ (97 ≤ c.toNat ∧ c.toNat ≤ 102) ∨ (65 ≤ c.toNat ∧ c.toNat ≤ 70)

/-- Numeric value of a hexadecimal digit character. -/
def hexVal (c : Char) : Nat :=
  if c.toNat ≤ 57 then c.toNat - 48
  else if c.toNat ≤ 70 then c.toNat - 55
  else c.toNat - 87

/-- Parser for the body of a JSON string literal (after the opening quote):
returns the decoded characters and the remainder after the closing quote.
Raw control characters below `0x20` are rejected; escapes `\" \\ \/ \b \f \n
\r \t \uXXXX` are decoded. -/
def parseStringBody : List Char → Option (List Char × List Char)
  | [] => none
  | c :: rest =>
    if c = '"' then some ([], rest)
    else if c = '\\' then
      match rest with
      | [] => none
      | e :: rest2 =>
        if e = '"' then (parseStringBody rest2).map fun p => ('"' :: p.1, p.2)
        else if e = '\\' then (parseStringBody rest2).map fun p => ('\\' :: p.1, p.2)
        else if e = '/' then (parseStringBody rest2).map fun p => ('/' :: p.1, p.2)
        else if e = 'b' then (parseStringBody rest2).map fun p => ('\x08' :: p.1, p.2)
        else if e = 'f' then (parseStringBody rest2).map fun p => ('\x0c' :: p.1, p.2)
        else if e = 'n' then (parseStringBody rest2).map fun p => ('\n' :: p.1, p.2)
        else if e = 'r' then (parseStringBody rest2).map fun p => ('\r' :: p.1, p.2)
        else if e = 't' then (parseStringBody rest2).map fun p => ('\t' :: p.1, p.2)
        else if e = 'u' then
          match rest2 with
          | h1 :: h2 :: h3 :: h4 :: rest3 =>
            if isHexDigit h1 ∧ isHexDigit h2 ∧ isHexDigit h3 ∧ isHexDigit h4 then
              (parseStringBody rest3).map fun p =>
                (Char.ofNat (((hexVal h1 * 16 + hexVal h2) * 16 + hexVal h3) * 16 + hexVal h4)
                  :: p.1, p.2)
            else none
          | _ => none
        else none
    else if c.toNat < 32 then none
    else (parseStringBody rest).map fun p => (c :: p.1, p.2)

mutual
/-- Fuel-indexed model of the `JSON.parse` value grammar (integer numbers
only): parses one value after skipping leading whitespace and returns it with
the unconsumed remainder. -/
def parseVal : Nat → List Char → Option (JVal × List Char)
  | 0, _ => none
  | f + 1, l =>
    match skipWs l with
    | [] => none
    | c :: rest =>
      if c = '"' then (parseStringBody rest).map fun p => (JVal.str p.1, p.2)
      else if c = lb then
        match skipWs rest with
        | [] => none
        | d :: rest2 =>
          if d = rb then some (JVal.obj [], rest2)
          else (parseFields f (d :: rest2)).map fun p => (JVal.obj p.1, p.2)
      else if c = '[' then
        match skipWs rest with
        | [] => none
        | d :: rest2 =>
          if d = ']' then some (JVal.arr [], rest2)
          else (parseElems f (d :: rest2)).map fun p => (JVal.arr p.1, p.2)
      else if c = 't' then
        if rest.take 3 = ['r', 'u', 'e'] then some (JVal.bool true, rest.drop 3) else none
      else if c = 'f' then
        if rest.take 4 = ['a', 'l', 's', 'e'] then some (JVal.bool false, rest.drop 4) else none
      else if c = 'n' then
        if rest.take 3 = ['u', 'l', 'l'] then some (JVal.null, rest.drop 3) else none
      else if c = '-' then
        match rest.takeWhile isDigitChar with
        | [] => none
        | ds => some (JVal.num (-(digitsToNat ds : Int)), rest.dropWhile isDigitChar)
      else if isDigitChar c then
        some (JVal.num (digitsToNat ((c :: rest).takeWhile isDigitChar)),
          (c :: rest).dropWhile isDigitChar)
      else none

/-- Fuel-indexed parser for a non-empty JSON object member list; the input
starts at the (non-whitespace) first character of the first key. -/
def parseFields : Nat → List Char → Option (List (List Char × JVal) × List Char)
  | 0, _ => none
  | f + 1, l =>
    match l with
    | [] => none
    | c :: r1 =>
      if c = '"' then
        match parseStringBody r1 with
        | none => none
        | some (k, r2) =>
          match skipWs r2 with
          | [] => none
          | d :: r3 =>
            if d = ':' then
              match parseVal f r3 with
              | none => none
              | some (v, r4) =>
                match skipWs r4 with
                | [] => none
                | e :: r5 =>
                  if e = ',' then
                    (parseFields f (skipWs r5)).map fun p => ((k, v) :: p.1, p.2)
                  else if e = rb then some ([(k, v)], r5)
                  else none
            else none
      else none

/-- Fuel-indexed parser for a non-empty JSON array element list; the input
starts at the first element. -/
def parseElems : Nat → List Char → Option (List JVal × List Char)
  | 0, _ => none
  | f + 1, l =>
    match parseVal f l with
    | none => none
    | some (v, r) =>
      match skipWs r with
      | [] => none
      | e :: r2 =>
        if e = ',' then (parseElems f r2).map fun p => (v :: p.1, p.2)
        else if e = ']' then some ([v], r2)
        else none
end

/-- Model of `JSON.parse`: parse one value and require only whitespace after
it.  The fuel `l.length + 1` is sufficient for any input (each unit of fuel
consumed corresponds to at least one consumed character). -/
def parseJson (l : List Char) : Option JVal :=
  match parseVal (l.length + 1) l with
  | some (v, r) => if skipWs r = [] then some v else none
  | none => none

/-! ### The JSON cleanup chain of `makeRequest` (groq.ts lines 288-346)

Each of the following functions models one of the regex replacements applied
to the model reply.  Global replacements (`/g`) are modelled by scanners that
emit unmatched characters one at a time and continue after each replacement,
exactly as the JavaScript regex engine advances `lastIndex`.  The scanners
carry a fuel argument that is initialized to the input length (each step
consumes at least one input character, so this fuel never runs out). -/

/-- JavaScript regex `\s` on the ASCII range: space, tab, newline, carriage
return, vertical tab and form feed (the Unicode space class is not modelled). -/
def isWsJs (c : Char) : Bool :=
  c = ' ' ∨ c = '\t' ∨ c = '\n' ∨ c = '\r' ∨ c = '\x0b' ∨ c = '\x0c'

/-- Split the input at the first occurrence of the Markdown fence marker
(three backquotes): returns the part before the marker and the part after it. -/
def splitFence : List Char → Option (List Char × List Char)
  | a :: b :: c :: rest =>
    if a = bq ∧ b = bq ∧ c = bq then some ([], rest)
    else (splitFence (b :: c :: rest)).map fun p => (a :: p.1, p.2)
  | _ => none

/-- Remove trailing JavaScript whitespace. -/
def dropTrailingWs (l : List Char) : List Char := (l.reverse.dropWhile isWsJs).reverse

/-- Consume an optional literal `json` tag (the `(?:json)?` group of the fence
regex). -/
def dropJsonTag : List Char → List Char
  | 'j' :: 's' :: 'o' :: 'n' :: rest => rest
  | l => l

/-- Scanner for the global replacement
`replace(/` ``` `(?:json)?\s*([\s\S]*?)\s*` ``` `/g, '$1')` (groq.ts line 299):
at each fence marker, consume an optional `json` tag and leading whitespace,
then lazily capture up to the next fence marker, dropping the whitespace run
just before it; the capture replaces the whole match.  When no closing marker
exists the match fails and the text is left unchanged. -/
def stripFencesGo : Nat → List Char → List Char
  | 0, l => l
  | f + 1, l =>
    match splitFence l with
    | none => l
    | some (pre, t0) =>
      let body := (dropJsonTag t0).dropWhile isWsJs
      match splitFence body with
      | some (b, rest2) => pre ++ (dropTrailingWs b ++ stripFencesGo f rest2)
      | none => pre ++ (bq :: bq :: bq :: stripFencesGo f t0)

/-- The fence-stripping replacement of groq.ts line 299. -/
def stripFences (l : List Char) : List Char := stripFencesGo l.length l

/-- Model of `replace(/^[^\x7b\[]*([\x7b\[])/, '$1')` (groq.ts line 300):
drop everything before the first `\x7b` or `[`; no change when neither
occurs. -/
def stripBeforeBrace (l : List Char) : List Char :=
  if l.any (fun c => c = lb ∨ c = '[') then
    l.dropWhile fun c => ¬(c = lb ∨ c = '[')
  else l

/-- Model of `replace(/([\x7d\]])[^\]]*$/, '$1')` (groq.ts line 301): the
leftmost match of this anchored pattern starts at the first `\x7d` or `]`
that is not followed by any later `]`; everything after that character is
dropped.  No change when no such character exists. -/
def stripAfterBrace : List Char → List Char
  | [] => []
  | c :: rest =>
    if (c = rb ∨ c = ']') ∧ ']' ∉ rest then [c]
    else c :: stripAfterBrace rest

/-- The control-character class `[\x00-\x1F\x7F-\x9F]` of groq.ts line 304. -/
def isCtrlJs (c : Char) : Bool :=
  c.toNat ≤ 31 ∨ (127 ≤ c.toNat ∧ c.toNat ≤ 159)

/-- Model of `replace(/[\x00-\x1F\x7F-\x9F]/g, '')` (groq.ts line 304). -/
def stripControl (l : List Char) : List Char := l.filter fun c => ¬ isCtrlJs c

/-- Model of `match(/\x7b.*\x7d/s)` (groq.ts line 312): the greedy match runs
from the first `\x7b` to the last `\x7d` after it; `none` when there is no
such pair. -/
def extractBraces (l : List Char) : Option (List Char) :=
  match l.dropWhile (fun c => ¬ c = lb) with
  | [] => none
  | c :: t =>
    if rb ∈ t then some (c :: (t.reverse.dropWhile fun x => ¬ x = rb).reverse)
    else none

/-- Model of `replace(/\n/g, ' ')` (groq.ts line 316). -/
def newlinesToSpaces (l : List Char) : List Char :=
  l.map fun c => if c = '\n' then ' ' else c

/-- Scanner for `replace(/\s+/g, ' ')` (groq.ts line 317): each maximal
whitespace run becomes a single space. -/
def collapseWsGo : Nat → List Char → List Char
  | 0, l => l
  | f + 1, l =>
    match l with
    | [] => []
    | c :: rest =>
      if isWsJs c then ' ' :: collapseWsGo f (rest.dropWhile isWsJs)
      else c :: collapseWsGo f rest

/-- The whitespace-collapsing replacement of groq.ts line 317. -/
def collapseWs (l : List Char) : List Char := collapseWsGo l.length l

/-- A word character of the bare-key class `[a-zA-Z0-9_]`. -/
def isWordChar (c : Char) : Bool :=
  (97 ≤ c.toNat ∧ c.toNat ≤ 122) ∨ (65 ≤ c.toNat ∧ c.toNat ≤ 90) ∨ isDigitChar c ∨ c = '_'

/-- Scanner for `replace(/([\x7b,]\s*)([a-zA-Z0-9_]+?)\s*:/g, '$1"$2":')`
(groq.ts line 319): after a `\x7b` or `,` and optional whitespace, a
non-empty word run followed by optional whitespace and `:` is wrapped in
double quotes (the whitespace before the colon is dropped, the whitespace
after the delimiter is kept by group 1). -/
def quoteBareKeysGo : Nat → List Char → List Char
  | 0, l => l
  | f + 1, l =>
    match l with
    | [] => []
    | c :: rest =>
      if c = lb ∨ c = ',' then
        let w := rest.takeWhile isWsJs
        let a := rest.dropWhile isWsJs
        let key := a.takeWhile isWordChar
        let b := (a.dropWhile isWordChar).dropWhile isWsJs
        match key, b with
        | _ :: _, ':' :: tail =>
          c :: (w ++ '"' :: (key ++ '"' :: ':' :: quoteBareKeysGo f tail))
        | _, _ => c :: quoteBareKeysGo f rest
      else c :: quoteBareKeysGo f rest

/-- The bare-key quoting replacement of groq.ts line 319. -/
def quoteBareKeys (l : List Char) : List Char := quoteBareKeysGo l.length l

/-- Scanner for `replace(/:\s*'([^']*?)'\s*([,\x7d])/g, ':"$1"$2')` (groq.ts
line 321): a single-quoted value after a colon, directly followed (modulo
whitespace) by `,` or `\x7d`, is requoted with double quotes. -/
def fixSingleQuotesGo : Nat → List Char → List Char
  | 0, l => l
  | f + 1, l =>
    match l with
    | [] => []
    | c :: rest =>
      if c = ':' then
        match rest.dropWhile isWsJs with
        | q :: a2 =>
          if q = squote then
            let cap := a2.takeWhile fun x => ¬ x = squote
            match a2.dropWhile fun x => ¬ x = squote with
            | _ :: a3 =>
              match a3.dropWhile isWsJs with
              | d :: tail =>
                if d = ',' ∨ d = rb then
                  ':' :: '"' :: (cap ++ '"' :: d :: fixSingleQuotesGo f tail)
                else ':' :: fixSingleQuotesGo f rest
              | [] => ':' :: fixSingleQuotesGo f rest
            | [] => ':' :: fixSingleQuotesGo f rest
          else ':' :: fixSingleQuotesGo f rest
        | [] => ':' :: fixSingleQuotesGo f rest
      else c :: fixSingleQuotesGo f rest

/-- The single-quote replacement of groq.ts line 321. -/
def fixSingleQuotes (l : List Char) : List Char := fixSingleQuotesGo l.length l

/-- Scanner for `replace(/,\s*([\x7d\]])/g, '$1')` (groq.ts line 323): a
comma followed (modulo whitespace) by a closing brace or bracket is removed
together with the whitespace; the bracket is kept. -/
def fixTrailingCommasGo : Nat → List Char → List Char
  | 0, l => l
  | f + 1, l =>
    match l with
    | [] => []
    | c :: rest =>
      if c = ',' then
        match rest.dropWhile isWsJs with
        | d :: tail =>
          if d = rb ∨ d = ']' then d :: fixTrailingCommasGo f tail
          else ',' :: fixTrailingCommasGo f rest
        | [] => ',' :: fixTrailingCommasGo f rest
      else c :: fixTrailingCommasGo f rest

/-- The trailing-comma replacement of groq.ts line 323. -/
def fixTrailingCommas (l : List Char) : List Char := fixTrailingCommasGo l.length l

/-- First-character class `[^\s\x7b\x7d\[\],"'0-9]` of the unquoted-value
regex (groq.ts line 325). -/
def isMVQStart (c : Char) : Bool :=
  ¬(isWsJs c ∨ c = lb ∨ c = rb ∨ c = '[' ∨ c = ']' ∨ c = ',' ∨ c = '"' ∨ c = squote
    ∨ isDigitChar c)

/-- Body-character class `[^\s\x7b\x7d\[\],:]` of the unquoted-value regex
(groq.ts line 325). -/
def isMVQBody (c : Char) : Bool :=
  ¬(isWsJs c ∨ c = lb ∨ c = rb ∨ c = '[' ∨ c = ']' ∨ c = ',' ∨ c = ':')

/-- Scanner for
`replace(/:\s*([^\s\x7b\x7d\[\],"'0-9][^\s\x7b\x7d\[\],:]*)([,\x7d])/g, ':"$1"$2')`
(groq.ts line 325): an unquoted value after a colon, directly followed by `,`
or `\x7d`, is wrapped in double quotes. -/
def fixMissingValueQuotesGo : Nat → List Char → List Char
  | 0, l => l
  | f + 1, l =>
    match l with
    | [] => []
    | c :: rest =>
      if c = ':' then
        match rest.dropWhile isWsJs with
        | v0 :: a2 =>
          if isMVQStart v0 then
            let body := a2.takeWhile isMVQBody
            match a2.dropWhile isMVQBody with
            | d :: tail =>
              if d = ',' ∨ d = rb then
                ':' :: '"' :: v0 :: (body ++ '"' :: d :: fixMissingValueQuotesGo f tail)
              else ':' :: fixMissingValueQuotesGo f rest
            | [] => ':' :: fixMissingValueQuotesGo f rest
          else ':' :: fixMissingValueQuotesGo f rest
        | [] => ':' :: fixMissingValueQuotesGo f rest
      else c :: fixMissingValueQuotesGo f rest

/-- The unquoted-value replacement of groq.ts line 325. -/
def fixMissingValueQuotes (l : List Char) : List Char := fixMissingValueQuotesGo l.length l

/-- The replacement chain applied to the brace-extracted text in the most
aggressive cleaning stage (groq.ts lines 314-325), in source order. -/
def aggressiveClean (l : List Char) : List Char :=
  fixMissingValueQuotes (fixTrailingCommas (fixSingleQuotes
    (quoteBareKeys (collapseWs (newlinesToSpaces l)))))

/-- Failure outcome of the JSON cleanup: the surfaced error
`Invalid JSON response from model: <response>` (groq.ts line 344), carrying
the reassigned `response` value at that point. -/
inductive CleanErr where
  | invalidJsonResponse (response : List Char)
  deriving DecidableEq

/-- The full JSON validation and repair logic of `makeRequest` for
`requireJson = true` (groq.ts lines 288-346).  Stage 1 (line 293): parse the
reply as is and return `JSON.stringify` of the parse.  Stage 2 (lines
296-307): strip fences, text before the first opening brace or bracket, text
after the closing one, and control characters, then parse again.  Stage 3
(lines 310-328): extract the outermost brace span and apply the aggressive
replacement chain, then parse again.  All remaining failures surface as the
`Invalid JSON response from model` error of line 344 (the stage-3 errors of
lines 329-333 are caught by the outer handler at line 341). -/
def cleanupJson (response : List Char) : Except CleanErr (List Char) :=
  match parseJson response with
  | some v => Except.ok (render v)
  | none =>
    let r4 := stripControl (stripAfterBrace (stripBeforeBrace (stripFences response)))
    match parseJson r4 with
    | some v => Except.ok (render v)
    | none =>
      match extractBraces r4 with
      | some m =>
        match parseJson (aggressiveClean m) with
        | some v => Except.ok (render v)
        | none => Except.error (CleanErr.invalidJsonResponse r4)
      | none => Except.error (CleanErr.invalidJsonResponse r4)

mutual
/-- Fuel measure for `parseVal`: enough fuel to parse the rendering of a
value. -/
def nodes : JVal → Nat
  | JVal.null => 1
  | JVal.bool _ => 1
  | JVal.num _ => 1
  | JVal.str _ => 1
  | JVal.arr es => 1 + elemsNodes es
  | JVal.obj fs => 1 + fieldsNodes fs

/-- Fuel measure for `parseElems`. -/
def elemsNodes : List JVal → Nat
  | [] => 0
  | v :: vs => 1 + nodes v + elemsNodes vs

/-- Fuel measure for `parseFields`. -/
def fieldsNodes : List (List Char × JVal) → Nat
  | [] => 0
  | f :: fs => 1 + nodes f.2 + fieldsNodes fs
end

/-- The first character of the list, if any, is not a decimal digit (the
condition under which a rendered number followed by this list parses back to
itself). -/
def headNotDigit (l : List Char) : Bool :=
  match l with
  | [] => true
  | c :: _ => ¬ isDigitChar c

/-- Characters allowed in keys and string values of the flat-object class of
claim C4: printable ASCII without the double quote, backslash, backquote,
closing brace and closing bracket (each of which one of the cleanup
replacements treats specially). -/
def c4SafeChar (c : Char) : Bool :=
  32 ≤ c.toNat ∧ c.toNat ≤ 126 ∧ ¬ c = '"' ∧ ¬ c = '\\' ∧ ¬ c = bq ∧ ¬ c = rb ∧ ¬ c = ']'

/-- All characters of the string are `c4SafeChar`. -/
def c4SafeStr (s : List Char) : Bool := s.all c4SafeChar

/-- Scalar member values of the flat-object class of claim C4: integers and
safe strings. -/
def c4SafeVal : JVal → Bool
  | JVal.num _ => true
  | JVal.str s => c4SafeStr s
  | _ => false

/-- Member lists of the flat-object class of claim C4. -/
def c4SafeFields (fs : List (List Char × JVal)) : Bool :=
  fs.all fun p => c4SafeStr p.1 && c4SafeVal p.2

/-- A reply consisting of `j` wrapped in Markdown code fences, with or without
the `json` language tag, each fence on its own line. -/
def fenceWrap (tag : Bool) (j : List Char) : List Char :=
  bq :: bq :: bq ::
    ((if tag then ['j', 's', 'o', 'n'] else []) ++ '\n' :: (j ++ '\n' :: [bq, bq, bq]))

/-- Characters allowed in keys and string values of the flat-object class of
claim C5: ASCII letters only. -/
def c5SafeChar (c : Char) : Bool :=
  (97 ≤ c.toNat ∧ c.toNat ≤ 122) ∨ (65 ≤ c.toNat ∧ c.toNat ≤ 90)

/-- All characters of the string are `c5SafeChar`. -/
def c5SafeStr (s : List Char) : Bool := s.all c5SafeChar

/-- Scalar member values of the flat-object class of claim C5: non-negative
integers and letter strings. -/
def c5SafeVal : JVal → Bool
  | JVal.num n => 0 ≤ n
  | JVal.str s => c5SafeStr s
  | _ => false

/-- Member lists of the flat-object class of claim C5. -/
def c5SafeFields (fs : List (List Char × JVal)) : Bool :=
  fs.all fun p => c5SafeStr p.1 && c5SafeVal p.2

/-- The rendering of a flat object with a trailing comma just before the
closing brace: a reply that would be valid JSON except for that comma. -/
def renderTrailing (fs : List (List Char × JVal)) : List Char :=
  lb :: (renderFields fs ++ [',', rb])

/-- Adjacent-pair relation: an opening brace or comma is directly followed by
a double quote or closing brace (the bare-key replacement of groq.ts line 319
then has no match). -/
def delimR (c d : Char) : Prop := (c = lb ∨ c = ',') → (d = '"' ∨ d = rb)

/-- Adjacent-pair relation: a colon is directly followed by a double quote or
a digit (the replacements of groq.ts lines 321 and 325 then have no match). -/
def colonR (c d : Char) : Prop := c = ':' → (d = '"' ∨ isDigitChar d = true)

/-- Adjacent-pair relation: a comma is directly followed by a double quote
(the trailing-comma replacement of groq.ts line 323 then has no match). -/
def commaQuoteR (c d : Char) : Prop := c = ',' → d = '"'

/-- Combined adjacency invariant of the rendering of a flat letter-keyed
object: an opening brace or comma is directly followed by a double quote, and
a colon by a double quote or a digit.  It implies each of `delimR`, `colonR`
and `commaQuoteR`. -/
def c5R (c d : Char) : Prop :=
  ((c = lb ∨ c = ',') → d = '"') ∧ (c = ':' → (d = '"' ∨ isDigitChar d = true))

/-- A concrete dispatcher state with one queued request, exhausted quota and a
future reset time, used to witness the rate-limit wait. -/
def c2State : Sys :=
  { remaining := 0, resetAt := 5000, now := 0, queue := [7], processing := true,
    pending := [], trace := [] }

/-- A system message whose string content has exactly 8000 characters. -/
def longSysMsg : GMsg :=
  { role := GRole.system, content := GContent.str (List.replicate 8000 'a'), name := none }

/-! ## Theorems -/

/-! ### Retry accounting (claims C1) -/

/-- C2: if a model's state has `remaining = 0` and `resetAt` strictly in the
future, `processQueue` does not issue the next queued request: it first starts
a sleep of `resetAt - now + 1000` milliseconds, and the queued request is
issued only once that sleep completes, at clock `resetAt + 1000`, which is
strictly past `resetAt`. -/
theorem c2_wait_until_reset (s : Sys) (i : Nat) (rest : List Nat)
    (hq : s.queue = i :: rest) (hr : s.remaining = 0) (ht : s.now < s.resetAt)
    (hp : s.pending = []) :
    (loopStep s).trace = s.trace ++ [Ev.rateWait (s.resetAt - s.now + 1000)] ∧
    (loopStep s).pending = [Pending.timer (s.resetAt - s.now + 1000) Kont.afterRateSleep] ∧
    (completeEvent (loopStep s)).trace =
      s.trace ++ [Ev.rateWait (s.resetAt - s.now + 1000), Ev.issue i] ∧
    (completeEvent (loopStep s)).now = s.resetAt + 1000 ∧
    s.resetAt < (completeEvent (loopStep s)).now := by
  have hcond : s.now < s.resetAt ∧ s.remaining ≤ 0 := ⟨ht, by omega⟩
  have h1 : loopStep s = { s with
      pending := s.pending ++ [Pending.timer (s.resetAt - s.now + 1000) Kont.afterRateSleep],
      trace := s.trace ++ [Ev.rateWait (s.resetAt - s.now + 1000)] } := by
    rw [loopStep]
    rw [hq]
    rw [if_pos hcond]
  rw [h1, hp]
  refine ⟨rfl, rfl, ?_, ?_, ?_⟩
  · rw [completeEvent]
    simp only [List.nil_append]
    rw [resumeKont, shiftAndCall]
    simp [hq]
  · rw [completeEvent]
    simp only [List.nil_append]
    rw [resumeKont, shiftAndCall]
    simp [hq]
    omega
  · rw [completeEvent]
    simp only [List.nil_append]
    rw [resumeKont, shiftAndCall]
    simp [hq]
    omega

/-- C2 (witness): the wait behaviour at the concrete state `c2State`. -/
theorem c2_wait_until_reset_witness :
    c2State.queue = 7 :: [] ∧ c2State.remaining = 0 ∧ c2State.now < c2State.resetAt ∧
    (loopStep c2State).trace = [Ev.rateWait 6000] ∧
    (completeEvent (loopStep c2State)).trace = [Ev.rateWait 6000, Ev.issue 7] ∧
    c2State.resetAt < (completeEvent (loopStep c2State)).now := by
  have h := c2_wait_until_reset c2State 7 [] rfl rfl (by decide) rfl
  refine ⟨rfl, rfl, by decide, ?_, ?_, h.2.2.2.2⟩
  · rw [h.1]; rfl
  · rw [h.2.2.1]; rfl

/-- C3 (counterexample): queue two requests, let the first complete, then
enqueue a third while the second is still in flight.  The third request's
HTTP call is started while the second is still outstanding, so two queued
requests of the same model are in flight concurrently, and the trace shows
request 2 issued before request 1 completes. -/
theorem c3_counterexample :
    threeReqScenario.pending = [Pending.http 1, Pending.http 2] ∧
    threeReqScenario.trace = [Ev.enqueue 0, Ev.issue 0, Ev.enqueue 1, Ev.complete 0,
      Ev.issue 1, Ev.decrement, Ev.enqueue 2, Ev.issue 2] ∧
    Ev.complete 1 ∉ threeReqScenario.trace := by
  decide

/-- C3 (amended): in the two-request scenario with `remaining = 1`, requests
are dequeued in FIFO order and the second is not started until the first has
completed; however, the second is started before the `processQueue` loop
decrements the remaining counter (the closure spawned by the first request's
`finally` block issues it first), as the full trace shows. -/
theorem c3_amended :
    twoReqScenario.trace = [Ev.enqueue 0, Ev.issue 0, Ev.enqueue 1, Ev.complete 0,
      Ev.issue 1, Ev.decrement, Ev.complete 1, Ev.decrement] ∧
    Ev.complete 0 ∈ twoReqScenario.trace.take 4 ∧
    Ev.issue 1 ∉ twoReqScenario.trace.take 4 ∧
    Ev.decrement ∉ twoReqScenario.trace.take 5 ∧
    Ev.issue 1 ∈ twoReqScenario.trace.take 5 := by
  decide

/-! ### Delay selection on HTTP 429 (claim C7) -/

/-- C7 (counterexample): an HTTP 429 whose error body parses but carries no
retry-after header and no in-message hint yields the fixed 5000 ms default of
`parseRetryAfter`, not an exponential-backoff delay: with `attempt = 0` and
`initialDelay = 1000` every possible backoff delay is below 1500 ms. -/
theorem c7_counterexample :
    rateLimit429Delay true none none 0 0 1000 0 = 5000 ∧
    (∀ u : ℚ, 0 ≤ u → u < 1 → calculateDelay 0 1000 u < 5000) := by
  constructor
  · norm_num [rateLimit429Delay, parseRetryAfter]
  · intro u h0 h1
    have hle : calculateDelay 0 1000 u ≤ 1000 + u * (1/2) * 1000 := by
      rw [calculateDelay]
      simp
    calc calculateDelay 0 1000 u ≤ 1000 + u * (1/2) * 1000 := hle
      _ < 5000 := by linarith

/-- C7 (amended): on HTTP 429 the delay is the server-provided hint when the
error body parses and the hint is positive; when the error body parses but no
retry-after header and no message hint are present, the delay is the fixed
5000 ms default of `parseRetryAfter` (not backoff); exponential backoff with
jitter is used when the error body fails to parse (`retryAfter` stays 0). -/
theorem c7_amended (attempt : Nat) (d u now : ℚ) (h : Option RetryAfterHeader)
    (msg : Option ℚ) (n : Nat) :
    rateLimit429Delay true none none now attempt d u = 5000 ∧
    rateLimit429Delay false h msg now attempt d u = calculateDelay attempt d u ∧
    rateLimit429Delay true (some (RetryAfterHeader.seconds (n + 1))) none now attempt d u
      = (n + 1) * 1000 := by
  refine ⟨by norm_num [rateLimit429Delay, parseRetryAfter], ?_, ?_⟩
  · simp [rateLimit429Delay]
  · have hpos : (0:ℚ) < (n + 1 : Nat) * 1000 := by positivity
    simp only [rateLimit429Delay, parseRetryAfter]
    rw [if_pos (by push_cast; push_cast at hpos; linarith)]
    push_cast
    ring

/-! ### Outbound size caps (claim C10) -/

theorem convertParts_bound (ps : List GPart)
    (hps : ∀ t, GPart.text t ∈ ps → t.length ≤ 8000) :
    ∀ n ∈ outTextLens { role := GRole.user, content := convertParts ps, name := none },
      n ≤ 8000 := by
  intro n hn
  simp only [convertParts] at hn
  repeat' split at hn
  all_goals simp only [outTextLens, List.map_map, List.mem_map, List.mem_filterMap,
    List.mem_singleton, List.not_mem_nil, List.length_nil, Function.comp] at hn
  all_goals try (subst hn; simp)
  · obtain ⟨p, hp, he⟩ := hn
    cases p with
    | text t => have := hps t hp; simp at he; omega
    | image u => simp at he; omega
  · obtain ⟨t, ⟨p, hp, he⟩, hlen⟩ := hn
    cases p with
    | text tt =>
      simp only [Option.some.injEq] at he
      have := hps tt hp
      subst he
      omega
    | image u => simp at he

theorem fixNonTextContent_bound (B : Nat) (r : GRole) (c : OutContent)
    (h : ∀ n ∈ outTextLens { role := GRole.user, content := c, name := none }, n ≤ B) :
    ∀ n ∈ outTextLens { role := r, content := fixNonTextContent r c, name := none },
      n ≤ B := by
  intro n hn
  cases r <;> cases c <;> simp only [fixNonTextContent, outTextLens] at hn ⊢ <;>
    first
      | exact h n hn
      | exact absurd hn (List.not_mem_nil n)
      | (simp only [List.mem_singleton, List.length_nil] at hn; omega)

/-- Every text payload of a converted, optimized message is bounded by
8000 characters plus the length of the JSON instruction. -/
theorem convertMsg_optimize_bound (requireJson : Bool) (m : GMsg) :
    ∀ n ∈ outTextLens (convertMsg requireJson (optimizeMsg m)),
      n ≤ 8000 + jsonInstr.length := by
  rcases m with ⟨r, c, nm⟩
  cases c with
  | str s =>
    cases r <;>
      simp only [convertMsg, optimizeMsg, fixNonTextContent, outTextLens,
        List.mem_singleton, List.length_append, List.length_take] <;>
      intro n hn <;> subst hn <;> (try split) <;> simp
  | parts ps =>
    have hps : ∀ t, GPart.text t ∈ (ps.map fun p =>
        match p with
        | GPart.text t => GPart.text (t.take 8000)
        | GPart.image u => GPart.image u) → t.length ≤ 8000 := by
      intro t ht
      simp only [List.mem_map] at ht
      obtain ⟨p, _, he⟩ := ht
      cases p with
      | text tt =>
        simp only [GPart.text.injEq] at he
        subst he
        simp [List.length_take]
      | image u => simp at he
    cases r with
    | function =>
      intro n hn
      simp only [convertMsg, optimizeMsg, outTextLens] at hn
      exact absurd hn (List.not_mem_nil n)
    | system =>
      intro n hn
      simp only [convertMsg, optimizeMsg] at hn
      have := fixNonTextContent_bound 8000 GRole.system _ (convertParts_bound _ hps) n hn
      omega
    | user =>
      intro n hn
      simp only [convertMsg, optimizeMsg] at hn
      have := fixNonTextContent_bound 8000 GRole.user _ (convertParts_bound _ hps) n hn
      omega
    | assistant =>
      intro n hn
      simp only [convertMsg, optimizeMsg] at hn
      have := fixNonTextContent_bound 8000 GRole.assistant _ (convertParts_bound _ hps) n hn
      omega

theorem convertMsg_system_str (s : List Char) :
    convertMsg true { role := GRole.system, content := GContent.str s, name := none } =
      { role := GRole.system, content := OutContent.str (s ++ jsonInstr), name := none } := by
  simp [convertMsg, fixNonTextContent]

theorem convertMsg_role (requireJson : Bool) (m : GMsg) :
    (convertMsg requireJson m).role = m.role := by
  rcases m with ⟨r, c, nm⟩
  cases r <;> rfl

theorem convertMsg_optimize_nonsystem (requireJson : Bool) (m : GMsg)
    (hr : ¬ m.role = GRole.system) :
    ∀ n ∈ outTextLens (convertMsg requireJson (optimizeMsg m)), n ≤ 8000 := by
  rcases m with ⟨r, c, nm⟩
  cases c with
  | str s =>
    cases r with
    | system => exact absurd rfl hr
    | function =>
      intro n hn
      simp only [convertMsg, optimizeMsg, outTextLens, List.mem_singleton] at hn
      subst hn
      simp
    | user =>
      intro n hn
      simp only [convertMsg, optimizeMsg, fixNonTextContent, outTextLens,
        List.mem_singleton] at hn
      subst hn
      rw [if_neg fun h => GRole.noConfusion h.2]
      simp
    | assistant =>
      intro n hn
      simp only [convertMsg, optimizeMsg, fixNonTextContent, outTextLens,
        List.mem_singleton] at hn
      subst hn
      rw [if_neg fun h => GRole.noConfusion h.2]
      simp
  | parts ps =>
    have hps : ∀ t, GPart.text t ∈ (ps.map fun p =>
        match p with
        | GPart.text t => GPart.text (t.take 8000)
        | GPart.image u => GPart.image u) → t.length ≤ 8000 := by
      intro t ht
      simp only [List.mem_map] at ht
      obtain ⟨p, _, he⟩ := ht
      cases p with
      | text tt =>
        simp only [GPart.text.injEq] at he
        subst he
        simp [List.length_take]
      | image u => simp at he
    cases r with
    | system => exact absurd rfl hr
    | function =>
      intro n hn
      simp only [convertMsg, optimizeMsg, outTextLens] at hn
      exact absurd hn (List.not_mem_nil n)
    | user =>
      intro n hn
      simp only [convertMsg, optimizeMsg] at hn
      exact fixNonTextContent_bound 8000 GRole.user _ (convertParts_bound _ hps) n hn
    | assistant =>
      intro n hn
      simp only [convertMsg, optimizeMsg] at hn
      exact fixNonTextContent_bound 8000 GRole.assistant _ (convertParts_bound _ hps) n hn

theorem fixNonTextContent_texts (r : GRole) (c : OutContent) (ts : List (List Char))
    (h : fixNonTextContent r c = OutContent.texts ts) : c = OutContent.texts ts := by
  cases r <;> cases c <;> simp only [fixNonTextContent] at h <;>
    first
      | exact h
      | exact OutContent.noConfusion h

theorem convertParts_texts_bound (ps : List GPart)
    (hps : ∀ t, GPart.text t ∈ ps → t.length ≤ 8000) :
    ∀ ts, convertParts ps = OutContent.texts ts → ∀ t ∈ ts, t.length ≤ 8000 := by
  intro ts hts t ht
  simp only [convertParts] at hts
  repeat' split at hts
  all_goals first
    | exact OutContent.noConfusion hts
    | skip
  all_goals rw [OutContent.texts.injEq] at hts
  all_goals subst hts
  · rw [List.mem_map] at ht
    obtain ⟨p, hp, he⟩ := ht
    cases p with
    | text tt =>
      simp only at he
      subst he
      exact hps tt hp
    | image u =>
      simp only at he
      subst he
      simp
  · rw [List.mem_filterMap] at ht
    obtain ⟨p, hp, he⟩ := ht
    cases p with
    | text tt =>
      simp only [Option.some.injEq] at he
      subst he
      exact hps tt hp
    | image u => simp at he

theorem convertMsg_optimize_texts (requireJson : Bool) (m : GMsg) (ts : List (List Char))
    (hts : (convertMsg requireJson (optimizeMsg m)).content = OutContent.texts ts) :
    ∀ t ∈ ts, t.length ≤ 8000 := by
  rcases m with ⟨r, c, nm⟩
  cases c with
  | str s =>
    exfalso
    cases r <;> simp [convertMsg, optimizeMsg, fixNonTextContent] at hts
  | parts ps =>
    have hps : ∀ t, GPart.text t ∈ (ps.map fun p =>
        match p with
        | GPart.text t => GPart.text (t.take 8000)
        | GPart.image u => GPart.image u) → t.length ≤ 8000 := by
      intro t ht
      simp only [List.mem_map] at ht
      obtain ⟨p, _, he⟩ := ht
      cases p with
      | text tt =>
        simp only [GPart.text.injEq] at he
        subst he
        simp [List.length_take]
      | image u => simp at he
    cases r with
    | function =>
      exfalso
      simp [convertMsg, optimizeMsg] at hts
    | system =>
      simp only [convertMsg, optimizeMsg] at hts
      exact convertParts_texts_bound _ hps ts (fixNonTextContent_texts _ _ ts hts)
    | user =>
      simp only [convertMsg, optimizeMsg] at hts
      exact convertParts_texts_bound _ hps ts (fixNonTextContent_texts _ _ ts hts)
    | assistant =>
      simp only [convertMsg, optimizeMsg] at hts
      exact convertParts_texts_bound _ hps ts (fixNonTextContent_texts _ _ ts hts)

/-- C10 (counterexample): for a system message with 8000 characters of string
content and `requireJson = true`, the only outbound text content has 8041
characters, exceeding 8000: the JSON instruction appended at groq.ts line
197 runs after the truncation of lines 161-180. -/
theorem c10_counterexample :
    (outboundMessages true [longSysMsg]).map outTextLens = [[8041]] ∧ ¬(8041 ≤ 8000) := by
  have h1 : addJsonInstruction true [longSysMsg] =
      [{ role := GRole.system, content := GContent.str (List.replicate 8000 'a' ++ jsonInstr),
         name := none }] := rfl
  have h2 : optimizeMsg
      { role := GRole.system,
        content := GContent.str (List.replicate 8000 'a' ++ jsonInstr), name := none } =
      { role := GRole.system, content := GContent.str (List.replicate 8000 'a'),
        name := none } := by
    simp only [optimizeMsg]
    rw [List.take_left' (List.length_replicate 8000 'a')]
  have h4 : outboundMessages true [longSysMsg] =
      [{ role := GRole.system, content := OutContent.str (List.replicate 8000 'a' ++ jsonInstr),
         name := none }] := by
    rw [outboundMessages, h1]
    simp only [List.map_cons, List.map_nil]
    rw [h2, convertMsg_system_str]
  refine ⟨?_, by omega⟩
  rw [h4]
  simp only [List.map_cons, List.map_nil, outTextLens, List.length_append,
    List.length_replicate]
  norm_num
  rfl

/-- C10 (amended): every string content and every text content part sent
upstream has length at most `8000 + 41` characters, where 41 is the length of
the JSON instruction that groq.ts line 197 appends to system string content
after the truncation to 8000 characters; the plain 8000 bound holds for every
non-system message and for every text part list (parts content).  The
`max_tokens` field sent is always at most 4000. -/
theorem c10_amended (requireJson : Bool) (msgs : List GMsg) (maxTokens : Nat) :
    ((outboundMessages requireJson msgs).all fun m =>
      (outTextLens m).all fun n => n ≤ 8000 + jsonInstr.length) = true ∧
    (∀ m ∈ outboundMessages requireJson msgs, ¬ m.role = GRole.system →
      ∀ n ∈ outTextLens m, n ≤ 8000) ∧
    (∀ m ∈ outboundMessages requireJson msgs, ∀ ts, m.content = OutContent.texts ts →
      ∀ t ∈ ts, t.length ≤ 8000) ∧
    sentMaxTokens maxTokens ≤ 4000 := by
  refine ⟨?_, ?_, ?_, Nat.min_le_right maxTokens 4000⟩
  · rw [List.all_eq_true]
    intro m hm
    rw [List.all_eq_true]
    intro n hn
    simp only [decide_eq_true_eq]
    simp only [outboundMessages, List.map_map, List.mem_map] at hm
    obtain ⟨m0, _, hm0⟩ := hm
    subst hm0
    exact convertMsg_optimize_bound requireJson m0 n hn
  · intro m hm hr n hn
    simp only [outboundMessages, List.map_map, List.mem_map] at hm
    obtain ⟨m0, _, hm0⟩ := hm
    subst hm0
    have hrole : (convertMsg requireJson (optimizeMsg m0)).role = m0.role :=
      convertMsg_role requireJson (optimizeMsg m0)
    refine convertMsg_optimize_nonsystem requireJson m0 ?_ n hn
    intro he
    exact hr (by rw [show ((convertMsg requireJson ∘ optimizeMsg) m0).role =
      (convertMsg requireJson (optimizeMsg m0)).role from rfl, hrole, he])
  · intro m hm ts hts t ht
    simp only [outboundMessages, List.map_map, List.mem_map] at hm
    obtain ⟨m0, _, hm0⟩ := hm
    subst hm0
    exact convertMsg_optimize_texts requireJson m0 ts hts t ht

/-! ### Backoff delay expectation and cap (claim C6) -/

theorem calculateDelayR_continuous (attempt : Nat) (d : ℝ) :
    Continuous fun u => calculateDelayR attempt d u := by
  simp only [calculateDelayR]
  exact ((continuous_const.add ((continuous_id.mul continuous_const).mul
    continuous_const)).min continuous_const)

/-- C6: for every attempt `n` and positive initial delay, the expected backoff
delay over the uniform jitter is non-decreasing from attempt `n` to attempt
`n + 1`, and every delay `calculateDelay` returns is at most the 60000 ms
ceiling. -/
theorem c6_backoff_monotone_capped (n : Nat) (d : ℝ) (hd : 0 < d) :
    expectedDelay n d ≤ expectedDelay (n + 1) d ∧
    (∀ u : ℝ, calculateDelayR n d u ≤ 60000) ∧
    (∀ (dq u : ℚ), calculateDelay n dq u ≤ 60000) := by
  refine ⟨?_, fun u => min_le_right _ _, fun dq u => min_le_right _ _⟩
  rw [expectedDelay, expectedDelay]
  apply intervalIntegral.integral_mono_on (by norm_num)
  · exact (calculateDelayR_continuous n d).intervalIntegrable 0 1
  · exact (calculateDelayR_continuous (n + 1) d).intervalIntegrable 0 1
  · intro u hu
    have hu0 : (0:ℝ) ≤ u := hu.1
    have hbase : (0:ℝ) < d * 2 ^ n := by positivity
    have hstep : d * 2 ^ n + u * (1/2) * (d * 2 ^ n) ≤
        d * 2 ^ (n + 1) + u * (1/2) * (d * 2 ^ (n + 1)) := by
      rw [pow_succ]
      nlinarith
    exact min_le_min hstep (le_refl _)

/-- C6 (witness): the theorem applied at attempt 0 with initial delay 1000. -/
theorem c6_backoff_monotone_capped_witness :
    (0:ℝ) < 1000 ∧
    (expectedDelay 0 1000 ≤ expectedDelay 1 1000 ∧
      (∀ u : ℝ, calculateDelayR 0 1000 u ≤ 60000) ∧
      (∀ (dq u : ℚ), calculateDelay 0 dq u ≤ 60000)) :=
  ⟨by norm_num, c6_backoff_monotone_capped 0 1000 (by norm_num)⟩

/-! ### Digit and escape round trips -/

theorem digitChar_toNat (d : Nat) (h : d < 10) : (digitChar d).toNat = 48 + d := by
  interval_cases d <;> decide

theorem isDigitChar_digitChar (d : Nat) (h : d < 10) : isDigitChar (digitChar d) = true := by
  interval_cases d <;> decide

theorem digitVal_digitChar (d : Nat) (h : d < 10) : digitVal (digitChar d) = d := by
  interval_cases d <;> decide

theorem foldr_digitVal (l : List Nat) (h : ∀ d ∈ l, d < 10) :
    l.foldr (fun d acc => acc * 10 + digitVal (digitChar d)) 0 = Nat.ofDigits 10 l := by
  induction l with
  | nil => simp [Nat.ofDigits_nil]
  | cons d l ih =>
    simp only [List.foldr_cons, Nat.ofDigits_cons]
    rw [ih fun x hx => h x (List.mem_cons_of_mem d hx),
      digitVal_digitChar d (h d (List.mem_cons_self d l))]
    ring

theorem digitsToNat_natDigits (n : Nat) : digitsToNat (natDigits n) = n := by
  by_cases h0 : n = 0
  · subst h0; rfl
  · rw [natDigits, if_neg h0, digitsToNat, List.foldl_map, List.foldl_reverse]
    rw [foldr_digitVal _ fun d hd => Nat.digits_lt_base (by norm_num) hd]
    exact Nat.ofDigits_digits 10 n

theorem natDigits_all_digit (n : Nat) : ∀ c ∈ natDigits n, isDigitChar c = true := by
  intro c hc
  by_cases h0 : n = 0
  · subst h0
    rw [show natDigits 0 = ['0'] from rfl, List.mem_singleton] at hc
    subst hc; decide
  · rw [natDigits, if_neg h0] at hc
    simp only [List.mem_map, List.mem_reverse] at hc
    obtain ⟨d, hd, he⟩ := hc
    subst he
    exact isDigitChar_digitChar d (Nat.digits_lt_base (by norm_num) hd)

theorem natDigits_ne_nil (n : Nat) : natDigits n ≠ [] := by
  by_cases h0 : n = 0
  · subst h0; simp [natDigits]
  · rw [natDigits, if_neg h0]
    simp only [ne_eq, List.map_eq_nil_iff, List.reverse_eq_nil_iff]
    exact Nat.digits_ne_nil_iff_ne_zero.mpr h0

theorem takeWhile_all_append (p : Char → Bool) (ds rest : List Char)
    (hds : ∀ c ∈ ds, p c = true)
    (hrest : ∀ c, rest.head? = some c → p c = false) :
    (ds ++ rest).takeWhile p = ds ∧ (ds ++ rest).dropWhile p = rest := by
  induction ds with
  | nil =>
    simp only [List.nil_append]
    cases rest with
    | nil => exact ⟨rfl, rfl⟩
    | cons c r =>
      rw [List.takeWhile_cons, List.dropWhile_cons, hrest c rfl]
      exact ⟨rfl, rfl⟩
  | cons d ds ih =>
    have hd := hds d (List.mem_cons_self d ds)
    rw [List.cons_append, List.takeWhile_cons, List.dropWhile_cons, hd]
    have := ih fun c hc => hds c (List.mem_cons_of_mem d hc)
    simp only [if_pos rfl, this.1, this.2]
    exact ⟨rfl, rfl⟩

theorem isHexDigit_hexDigit (d : Nat) (h : d < 16) : isHexDigit (hexDigit d) = true := by
  interval_cases d <;> decide

theorem hexVal_hexDigit (d : Nat) (h : d < 16) : hexVal (hexDigit d) = d := by
  interval_cases d <;> decide

theorem parseStringBody_escape (s rest : List Char) :
    parseStringBody (escapeStr s ++ ('"' :: rest)) = some (s, rest) := by
  induction s with
  | nil =>
    show parseStringBody ('"' :: rest) = some ([], rest)
    rw [parseStringBody.eq_def]
    simp +decide
  | cons c s ih =>
    show parseStringBody ((escapeChar c ++ escapeStr s) ++ ('"' :: rest)) = _
    rw [List.append_assoc, escapeChar]
    split_ifs with h1 h2 h3 h4 h5 h6 h7 h8
    · subst h1; rw [List.cons_append, List.cons_append, parseStringBody.eq_def]
      simp +decide [ih]
    · subst h2; rw [List.cons_append, List.cons_append, parseStringBody.eq_def]
      simp +decide [ih]
    · subst h3; rw [List.cons_append, List.cons_append, parseStringBody.eq_def]
      simp +decide [ih]
    · subst h4; rw [List.cons_append, List.cons_append, parseStringBody.eq_def]
      simp +decide [ih]
    · subst h5; rw [List.cons_append, List.cons_append, parseStringBody.eq_def]
      simp +decide [ih]
    · subst h6; rw [List.cons_append, List.cons_append, parseStringBody.eq_def]
      simp +decide [ih]
    · subst h7; rw [List.cons_append, List.cons_append, parseStringBody.eq_def]
      simp +decide [ih]
    · have hd1 : c.toNat / 16 < 16 := by omega
      have hd2 : c.toNat % 16 < 16 := Nat.mod_lt _ (by norm_num)
      simp only [List.cons_append, List.nil_append]
      rw [parseStringBody.eq_def]
      simp +decide only [ite_true, ite_false]
      rw [if_pos]
      · rw [ih]
        have hv : ((hexVal '0' * 16 + hexVal '0') * 16 + hexVal (hexDigit (c.toNat / 16))) * 16
            + hexVal (hexDigit (c.toNat % 16)) = c.toNat := by
          rw [hexVal_hexDigit _ hd1, hexVal_hexDigit _ hd2]
          have h0 : hexVal '0' = 0 := by decide
          rw [h0]
          omega
        rw [hv, Char.ofNat_toNat]
        rfl
      · refine ⟨by decide, by decide, ?_, ?_⟩
        · rw [isHexDigit_hexDigit _ hd1]
        · rw [isHexDigit_hexDigit _ hd2]
    · rw [List.cons_append, parseStringBody.eq_def]
      simp only [if_neg h1, if_neg h2, if_neg (by omega : ¬c.toNat < 32), List.nil_append]
      rw [ih]
      rfl

/-! ### Parser round trip for rendered values -/

theorem skipWs_cons (c : Char) (l : List Char) (h : isWsJson c = false) :
    skipWs (c :: l) = c :: l := by
  rw [skipWs, List.dropWhile_cons, h]
  simp

theorem digit_not_wsJson (c : Char) (h : isDigitChar c = true) : isWsJson c = false := by
  by_contra hws
  rw [Bool.not_eq_false, isWsJson] at hws
  rcases of_decide_eq_true hws with h1 | h1 | h1 | h1 <;>
    (subst h1; exact absurd h (by decide))

theorem digit_ne (c x : Char) (h : isDigitChar c = true) (hx : isDigitChar x = false) :
    c ≠ x := by
  intro he
  subst he
  rw [h] at hx
  exact absurd hx (by decide)

theorem headNotDigit_spec (l : List Char) (h : headNotDigit l = true) :
    ∀ c, l.head? = some c → isDigitChar c = false := by
  intro c hc
  cases l with
  | nil => simp at hc
  | cons d r =>
    simp only [List.head?_cons, Option.some.injEq] at hc
    subst hc
    rw [headNotDigit] at h
    simpa using h

theorem natDigits_cons (n : Nat) : ∃ c cs, natDigits n = c :: cs := by
  cases h : natDigits n with
  | nil => exact absurd h (natDigits_ne_nil n)
  | cons c cs => exact ⟨c, cs, rfl⟩

theorem parseVal_intChars (n : Int) (f : Nat) (rest : List Char)
    (hrest : headNotDigit rest = true) :
    parseVal (f + 1) (intChars n ++ rest) = some (JVal.num n, rest) := by
  obtain ⟨c, cs, hnd⟩ := natDigits_cons n.natAbs
  have hall : ∀ x ∈ c :: cs, isDigitChar x = true := by
    rw [← hnd]; exact natDigits_all_digit n.natAbs
  have hc := hall c (List.mem_cons_self c cs)
  have htk := takeWhile_all_append isDigitChar (c :: cs) rest hall (headNotDigit_spec rest hrest)
  have hne := digit_ne c
  by_cases hn : n < 0
  · rw [intChars, if_pos hn, hnd]
    show parseVal (f + 1) ('-' :: ((c :: cs) ++ rest)) = _
    rw [parseVal.eq_def]
    simp only [skipWs_cons '-' _ (by decide)]
    simp +decide only [ite_true, ite_false]
    rw [htk.1, htk.2]
    show (some (JVal.num (-(digitsToNat (c :: cs) : Int)), rest) : Option (JVal × List Char)) =
      some (JVal.num n, rest)
    have hv : digitsToNat (c :: cs) = n.natAbs := by rw [← hnd, digitsToNat_natDigits]
    rw [hv]
    have : -(n.natAbs : Int) = n := by omega
    rw [this]
  · rw [intChars, if_neg hn, hnd]
    show parseVal (f + 1) (c :: (cs ++ rest)) = _
    rw [parseVal.eq_def]
    simp only [skipWs_cons c _ (digit_not_wsJson c hc)]
    rw [if_neg (hne '"' hc (by decide)), if_neg (hne lb hc (by decide)),
      if_neg (hne '[' hc (by decide)), if_neg (hne 't' hc (by decide)),
      if_neg (hne 'f' hc (by decide)), if_neg (hne 'n' hc (by decide)),
      if_neg (hne '-' hc (by decide)), if_pos hc]
    have htk2 : (c :: (cs ++ rest)).takeWhile isDigitChar = c :: cs := by
      rw [show c :: (cs ++ rest) = (c :: cs) ++ rest from rfl, htk.1]
    have hdr2 : (c :: (cs ++ rest)).dropWhile isDigitChar = rest := by
      rw [show c :: (cs ++ rest) = (c :: cs) ++ rest from rfl, htk.2]
    rw [htk2, hdr2]
    have hv : digitsToNat (c :: cs) = n.natAbs := by rw [← hnd, digitsToNat_natDigits]
    rw [hv]
    have : (n.natAbs : Int) = n := by omega
    rw [this]

theorem render_head (v : JVal) :
    ∃ c cs, render v = c :: cs ∧ isWsJson c = false ∧ c ≠ ']' := by
  cases v with
  | null => exact ⟨'n', _, rfl, by decide, by decide⟩
  | bool b =>
    cases b
    · exact ⟨'f', _, rfl, by decide, by decide⟩
    · exact ⟨'t', _, rfl, by decide, by decide⟩
  | num n =>
    obtain ⟨c, cs, hnd⟩ := natDigits_cons n.natAbs
    have hc : isDigitChar c = true := by
      have := natDigits_all_digit n.natAbs c
      rw [hnd] at this
      exact this (List.mem_cons_self c cs)
    by_cases hn : n < 0
    · exact ⟨'-', _, by rw [show render (JVal.num n) = intChars n from rfl, intChars, if_pos hn],
        by decide, by decide⟩
    · refine ⟨c, cs ++ [], ?_, digit_not_wsJson c hc, digit_ne c ']' hc (by decide)⟩
      rw [show render (JVal.num n) = intChars n from rfl, intChars, if_neg hn, hnd]
      simp
  | str s => exact ⟨'"', _, rfl, by decide, by decide⟩
  | arr es => exact ⟨'[', _, rfl, by decide, by decide⟩
  | obj fs => exact ⟨lb, _, rfl, by decide, by decide⟩

theorem nodes_pos (v : JVal) : 1 ≤ nodes v := by
  cases v <;> simp [nodes]

theorem renderFields_head (fs : List (List Char × JVal)) (h : fs ≠ []) :
    ∃ t, renderFields fs = '"' :: t := by
  match fs with
  | [] => exact absurd rfl h
  | [(k, v)] => exact ⟨_, rfl⟩
  | (k, v) :: kv2 :: fs => exact ⟨_, rfl⟩

theorem parseFields_render (N : Nat)
    (IH : ∀ w, nodes w ≤ N → ∀ f rest, nodes w ≤ f → headNotDigit rest = true →
      parseVal f (render w ++ rest) = some (w, rest)) :
    ∀ fs f rest, fs ≠ [] → fieldsNodes fs ≤ N → fieldsNodes fs ≤ f →
      parseFields f (renderFields fs ++ (rb :: rest)) = some (fs, rest) := by
  intro fs
  induction fs with
  | nil => intro f rest h; exact absurd rfl h
  | cons kv fs ihfs =>
    intro f rest _ hN hf
    obtain ⟨k, v⟩ := kv
    simp only [fieldsNodes] at hN hf
    obtain ⟨f, rfl⟩ : ∃ g, f = g + 1 := ⟨f - 1, by omega⟩
    by_cases hfs : fs = []
    · subst hfs
      have hIH : parseVal f (render v ++ (rb :: rest)) = some (v, rb :: rest) :=
        IH v (by omega) f (rb :: rest) (by omega) rfl
      show parseFields (f + 1)
        (('"' :: (escapeStr k ++ '"' :: ':' :: render v)) ++ (rb :: rest)) = _
      simp only [List.cons_append, List.append_assoc]
      simp +decide only [parseFields, parseStringBody_escape,
        skipWs_cons ':' (render v ++ rb :: rest) (by decide), hIH,
        skipWs_cons rb rest (by decide), ite_true, ite_false]
    · obtain ⟨kv2, fs2, rfl⟩ : ∃ kv2 fs2, fs = kv2 :: fs2 := by
        cases fs with
        | nil => exact absurd rfl hfs
        | cons a b => exact ⟨a, b, rfl⟩
      obtain ⟨t, ht⟩ := renderFields_head (kv2 :: fs2) (by simp)
      have hIH : parseVal f (render v ++ (',' :: (renderFields (kv2 :: fs2) ++ rb :: rest))) =
          some (v, ',' :: (renderFields (kv2 :: fs2) ++ rb :: rest)) :=
        IH v (by omega) f _ (by omega) rfl
      have hrec : parseFields f (renderFields (kv2 :: fs2) ++ (rb :: rest)) =
          some (kv2 :: fs2, rest) :=
        ihfs f rest (by simp) (by omega) (by omega)
      have hskip : skipWs (renderFields (kv2 :: fs2) ++ rb :: rest) =
          renderFields (kv2 :: fs2) ++ rb :: rest := by
        rw [ht]
        exact skipWs_cons '"' _ (by decide)
      show parseFields (f + 1)
        ((('"' :: (escapeStr k ++ '"' :: ':' :: render v)) ++
          ',' :: renderFields (kv2 :: fs2)) ++ (rb :: rest)) = _
      simp only [List.cons_append, List.append_assoc]
      simp +decide only [parseFields, parseStringBody_escape,
        skipWs_cons ':' _ (by decide), hIH,
        skipWs_cons ',' _ (by decide), hskip, hrec, ite_true, ite_false]
      rfl

theorem parseElems_render (N : Nat)
    (IH : ∀ w, nodes w ≤ N → ∀ f rest, nodes w ≤ f → headNotDigit rest = true →
      parseVal f (render w ++ rest) = some (w, rest)) :
    ∀ es f rest, es ≠ [] → elemsNodes es ≤ N → elemsNodes es ≤ f →
      parseElems f (renderElems es ++ (']' :: rest)) = some (es, rest) := by
  intro es
  induction es with
  | nil => intro f rest h; exact absurd rfl h
  | cons v es ihes =>
    intro f rest _ hN hf
    simp only [elemsNodes] at hN hf
    obtain ⟨f, rfl⟩ : ∃ g, f = g + 1 := ⟨f - 1, by omega⟩
    by_cases hes : es = []
    · subst hes
      have hIH : parseVal f (render v ++ (']' :: rest)) = some (v, ']' :: rest) :=
        IH v (by omega) f (']' :: rest) (by omega) rfl
      show parseElems (f + 1) (render v ++ (']' :: rest)) = _
      simp +decide only [parseElems, hIH, skipWs_cons ']' rest (by decide),
        ite_true, ite_false]
    · obtain ⟨v2, es2, rfl⟩ : ∃ v2 es2, es = v2 :: es2 := by
        cases es with
        | nil => exact absurd rfl hes
        | cons a b => exact ⟨a, b, rfl⟩
      have hIH : parseVal f (render v ++ (',' :: (renderElems (v2 :: es2) ++ ']' :: rest))) =
          some (v, ',' :: (renderElems (v2 :: es2) ++ ']' :: rest)) :=
        IH v (by omega) f _ (by omega) rfl
      have hrec : parseElems f (renderElems (v2 :: es2) ++ (']' :: rest)) =
          some (v2 :: es2, rest) :=
        ihes f rest (by simp) (by omega) (by omega)
      show parseElems (f + 1)
        ((render v ++ ',' :: renderElems (v2 :: es2)) ++ (']' :: rest)) = _
      simp only [List.cons_append, List.append_assoc]
      simp +decide only [parseElems, hIH, skipWs_cons ',' _ (by decide), hrec,
        ite_true, ite_false]
      rfl

theorem parseVal_render_aux (N : Nat) :
    ∀ v, nodes v ≤ N → ∀ f rest, nodes v ≤ f → headNotDigit rest = true →
      parseVal f (render v ++ rest) = some (v, rest) := by
  induction N with
  | zero => intro v hv; have := nodes_pos v; omega
  | succ N ih =>
    intro v hvN f rest hvf hrest
    have h1 := nodes_pos v
    obtain ⟨f, rfl⟩ : ∃ g, f = g + 1 := ⟨f - 1, by omega⟩
    cases v with
    | null =>
      show parseVal (f + 1) ('n' :: 'u' :: 'l' :: 'l' :: rest) = _
      rw [parseVal]
      rw [skipWs_cons 'n' _ (by decide)]
      simp +decide only [ite_true, ite_false, List.take, List.drop]
    | bool b =>
      cases b
      · show parseVal (f + 1) ('f' :: 'a' :: 'l' :: 's' :: 'e' :: rest) = _
        rw [parseVal]
        rw [skipWs_cons 'f' _ (by decide)]
        simp +decide only [ite_true, ite_false, List.take, List.drop]
      · show parseVal (f + 1) ('t' :: 'r' :: 'u' :: 'e' :: rest) = _
        rw [parseVal]
        rw [skipWs_cons 't' _ (by decide)]
        simp +decide only [ite_true, ite_false, List.take, List.drop]
    | num n => exact parseVal_intChars n f rest hrest
    | str s =>
      show parseVal (f + 1) (('"' :: (escapeStr s ++ ['"'])) ++ rest) = _
      simp only [List.cons_append, List.append_assoc, List.nil_append]
      rw [parseVal]
      rw [skipWs_cons '"' _ (by decide)]
      simp +decide only [ite_true, ite_false]
      rw [show ('"' :: rest) = ('"' :: rest) from rfl, parseStringBody_escape s rest]
      rfl
    | arr es =>
      cases es with
      | nil =>
        show parseVal (f + 1) (('[' :: ([] ++ [']'])) ++ rest) = _
        simp only [List.nil_append, List.cons_append]
        rw [parseVal]
        rw [skipWs_cons '[' _ (by decide)]
        simp +decide only [ite_true, ite_false, skipWs_cons ']' rest (by decide)]
      | cons v es =>
        simp only [nodes] at hvN hvf
        obtain ⟨c, cs, hh, hws, hne⟩ := render_head v
        have hhead : ∃ t, renderElems (v :: es) = c :: t := by
          cases es with
          | nil => exact ⟨cs, hh⟩
          | cons v2 es2 =>
            refine ⟨cs ++ ',' :: renderElems (v2 :: es2), ?_⟩
            show render v ++ ',' :: renderElems (v2 :: es2) = _
            rw [hh]
            rfl
        obtain ⟨t, ht⟩ := hhead
        have helems := parseElems_render N ih (v :: es) f rest (by simp) (by omega) (by omega)
        show parseVal (f + 1) (('[' :: (renderElems (v :: es) ++ [']'])) ++ rest) = _
        simp only [List.cons_append, List.append_assoc, List.nil_append]
        rw [parseVal]
        rw [skipWs_cons '[' _ (by decide)]
        simp +decide only [ite_true, ite_false]
        rw [show renderElems (v :: es) ++ (']' :: rest) =
          (c :: t) ++ (']' :: rest) from by rw [← ht]] 
        rw [List.cons_append, skipWs_cons c _ hws]
        simp only [if_neg hne]
        rw [show (c :: (t ++ ']' :: rest)) = renderElems (v :: es) ++ (']' :: rest) from by
          rw [ht]; rfl]
        rw [helems]
        rfl
    | obj fs =>
      cases fs with
      | nil =>
        show parseVal (f + 1) ((lb :: ([] ++ [rb])) ++ rest) = _
        simp only [List.nil_append, List.cons_append]
        rw [parseVal]
        rw [skipWs_cons lb _ (by decide)]
        simp +decide only [ite_true, ite_false, skipWs_cons rb rest (by decide)]
      | cons kv fs =>
        simp only [nodes] at hvN hvf
        obtain ⟨t, ht⟩ := renderFields_head (kv :: fs) (by simp)
        have hflds := parseFields_render N ih (kv :: fs) f rest (by simp) (by omega) (by omega)
        show parseVal (f + 1) ((lb :: (renderFields (kv :: fs) ++ [rb])) ++ rest) = _
        simp only [List.cons_append, List.append_assoc, List.nil_append]
        rw [parseVal]
        rw [skipWs_cons lb _ (by decide)]
        simp +decide only [ite_true, ite_false]
        rw [show renderFields (kv :: fs) ++ (rb :: rest) =
          ('"' :: t) ++ (rb :: rest) from by rw [← ht]]
        rw [List.cons_append, skipWs_cons '"' _ (by decide)]
        simp only [if_neg (by decide : ¬('"' : Char) = rb)]
        rw [show ('"' :: (t ++ rb :: rest)) = renderFields (kv :: fs) ++ (rb :: rest) from by
          rw [ht]; rfl]
        rw [hflds]
        rfl

theorem parseVal_render (v : JVal) (f : Nat) (rest : List Char) (hf : nodes v ≤ f)
    (hrest : headNotDigit rest = true) :
    parseVal f (render v ++ rest) = some (v, rest) :=
  parseVal_render_aux (nodes v) v le_rfl f rest hf hrest

theorem fieldsNodes_le_length (N : Nat)
    (IH : ∀ w, nodes w ≤ N → nodes w ≤ (render w).length) :
    ∀ fs, fieldsNodes fs ≤ N → fieldsNodes fs ≤ (renderFields fs).length + 1 := by
  intro fs
  induction fs with
  | nil => intro; simp [fieldsNodes]
  | cons kv fs ihfs =>
    intro hN
    obtain ⟨k, v⟩ := kv
    simp only [fieldsNodes] at hN ⊢
    have hv := IH v (by omega)
    by_cases hfs : fs = []
    · subst hfs
      show 1 + nodes v + 0 ≤ ('"' :: (escapeStr k ++ '"' :: ':' :: render v)).length + 1
      simp only [List.length_cons, List.length_append]
      omega
    · obtain ⟨kv2, fs2, rfl⟩ : ∃ kv2 fs2, fs = kv2 :: fs2 := by
        cases fs with
        | nil => exact absurd rfl hfs
        | cons a b => exact ⟨a, b, rfl⟩
      have hrec := ihfs (by omega)
      show 1 + nodes v + fieldsNodes (kv2 :: fs2) ≤
        (('"' :: (escapeStr k ++ '"' :: ':' :: render v)) ++
          ',' :: renderFields (kv2 :: fs2)).length + 1
      simp only [List.length_cons, List.length_append]
      simp only [List.length_cons, List.length_append] at hrec
      omega

theorem elemsNodes_le_length (N : Nat)
    (IH : ∀ w, nodes w ≤ N → nodes w ≤ (render w).length) :
    ∀ es, elemsNodes es ≤ N → elemsNodes es ≤ (renderElems es).length + 1 := by
  intro es
  induction es with
  | nil => intro; simp [elemsNodes]
  | cons v es ihes =>
    intro hN
    simp only [elemsNodes] at hN ⊢
    have hv := IH v (by omega)
    by_cases hes : es = []
    · subst hes
      show 1 + nodes v + 0 ≤ (render v).length + 1
      omega
    · obtain ⟨v2, es2, rfl⟩ : ∃ v2 es2, es = v2 :: es2 := by
        cases es with
        | nil => exact absurd rfl hes
        | cons a b => exact ⟨a, b, rfl⟩
      have hrec := ihes (by omega)
      show 1 + nodes v + elemsNodes (v2 :: es2) ≤
        (render v ++ ',' :: renderElems (v2 :: es2)).length + 1
      simp only [List.length_cons, List.length_append]
      simp only [List.length_cons, List.length_append] at hrec
      omega

theorem nodes_le_length_aux (N : Nat) :
    ∀ v, nodes v ≤ N → nodes v ≤ (render v).length := by
  induction N with
  | zero => intro v hv; have := nodes_pos v; omega
  | succ N ih =>
    intro v hvN
    cases v with
    | null => decide
    | bool b => cases b <;> decide
    | num n =>
      obtain ⟨c, cs, hnd⟩ := natDigits_cons n.natAbs
      show nodes (JVal.num n) ≤ (intChars n).length
      rw [intChars, nodes]
      split <;> rw [hnd] <;> simp
    | str s =>
      show 1 ≤ ('"' :: (escapeStr s ++ ['"'])).length
      simp
    | arr es =>
      cases es with
      | nil => decide
      | cons v es2 =>
        simp only [nodes] at hvN ⊢
        have := elemsNodes_le_length N ih (v :: es2) (by omega)
        show 1 + elemsNodes (v :: es2) ≤ ('[' :: (renderElems (v :: es2) ++ [']'])).length
        simp only [List.length_cons, List.length_append]
        omega
    | obj fs =>
      cases fs with
      | nil => decide
      | cons kv fs2 =>
        simp only [nodes] at hvN ⊢
        have := fieldsNodes_le_length N ih (kv :: fs2) (by omega)
        show 1 + fieldsNodes (kv :: fs2) ≤ (lb :: (renderFields (kv :: fs2) ++ [rb])).length
        simp only [List.length_cons, List.length_append]
        omega

theorem nodes_le_length (v : JVal) : nodes v ≤ (render v).length :=
  nodes_le_length_aux (nodes v) v le_rfl

/-- The rendering of any JSON value parses back to the value: the round trip
`JSON.parse (JSON.stringify v) = v` of the model. -/
theorem parseJson_render (v : JVal) : parseJson (render v) = some v := by
  rw [parseJson]
  have h1 : nodes v ≤ (render v).length + 1 :=
    le_trans (nodes_le_length v) (Nat.le_succ _)
  have h2 := parseVal_render v ((render v).length + 1) [] h1 rfl
  rw [List.append_nil] at h2
  rw [h2]
  rfl

/-! ### JSON cleanup claims C9 and C8 -/

/-- C9: a model reply that already parses as valid JSON is returned as
`JSON.stringify(JSON.parse(reply))`, and that string parses back to the same
value, so already-valid replies are passed through semantically unchanged. -/
theorem c9_valid_json_passthrough (s : List Char) (v : JVal) (h : parseJson s = some v) :
    cleanupJson s = Except.ok (render v) ∧ parseJson (render v) = some v := by
  constructor
  · rw [cleanupJson, h]
  · exact parseJson_render v

/-- C9 (witness): the passthrough at the concrete reply `\x7b\x7d`. -/
theorem c9_valid_json_passthrough_witness :
    parseJson [lb, rb] = some (JVal.obj []) ∧
    (cleanupJson [lb, rb] = Except.ok (render (JVal.obj [])) ∧
      parseJson (render (JVal.obj [])) = some (JVal.obj [])) :=
  ⟨rfl, c9_valid_json_passthrough [lb, rb] (JVal.obj []) rfl⟩

/-- C8: when the reply does not parse, the stage-2 cleaned text does not
parse, and the aggressive stage-3 cleaning also fails (no brace span, or its
cleaned text does not parse), `makeRequest` fails with the explicit
`Invalid JSON response from model` error instead of returning a value. -/
theorem c8_invalid_json_error (r : List Char)
    (h1 : parseJson r = none)
    (h2 : parseJson (stripControl (stripAfterBrace (stripBeforeBrace (stripFences r)))) = none)
    (h3 : ∀ m, extractBraces (stripControl (stripAfterBrace (stripBeforeBrace (stripFences r))))
        = some m → parseJson (aggressiveClean m) = none) :
    cleanupJson r = Except.error (CleanErr.invalidJsonResponse
      (stripControl (stripAfterBrace (stripBeforeBrace (stripFences r))))) := by
  rw [cleanupJson, h1]
  simp only [h2]
  cases hx : extractBraces (stripControl (stripAfterBrace (stripBeforeBrace (stripFences r)))) with
  | none => simp only [hx]
  | some m => simp only [hx, h3 m hx]

/-- C8 (witness): the error surfaced on the concrete reply `hello`, which no
cleanup stage can turn into JSON. -/
theorem c8_invalid_json_error_witness :
    cleanupJson ['h', 'e', 'l', 'l', 'o'] =
      Except.error (CleanErr.invalidJsonResponse ['h', 'e', 'l', 'l', 'o']) :=
  c8_invalid_json_error ['h', 'e', 'l', 'l', 'o'] rfl rfl
    (fun _ hm => Option.noConfusion hm)

/-! ### Claim C4: fenced replies -/

theorem escapeChar_printable (c : Char) (h32 : 32 ≤ c.toNat) (hq : c ≠ '"')
    (hb : c ≠ '\\') : escapeChar c = [c] := by
  rw [escapeChar, if_neg hq, if_neg hb]
  rw [if_neg (fun he => by subst he; exact absurd h32 (by decide))]
  rw [if_neg (fun he => by subst he; exact absurd h32 (by decide))]
  rw [if_neg (fun he => by subst he; exact absurd h32 (by decide))]
  rw [if_neg (fun he => by subst he; exact absurd h32 (by decide))]
  rw [if_neg (fun he => by subst he; exact absurd h32 (by decide))]
  rw [if_neg (by omega)]

theorem escapeStr_printable (s : List Char)
    (h : ∀ c ∈ s, 32 ≤ c.toNat ∧ c ≠ '"' ∧ c ≠ '\\') : escapeStr s = s := by
  induction s with
  | nil => rfl
  | cons c s ih =>
    show escapeChar c ++ escapeStr s = c :: s
    obtain ⟨h1, h2, h3⟩ := h c (List.mem_cons_self c s)
    rw [escapeChar_printable c h1 h2 h3, ih fun x hx => h x (List.mem_cons_of_mem c hx)]
    rfl

theorem intChars_mem (n : Int) : ∀ c ∈ intChars n, c = '-' ∨ isDigitChar c = true := by
  intro c hc
  rw [intChars] at hc
  split at hc
  · rcases List.mem_cons.mp hc with h | h
    · exact Or.inl h
    · exact Or.inr (natDigits_all_digit _ c h)
  · exact Or.inr (natDigits_all_digit _ c hc)

theorem c4SafeChar_spec (c : Char) (h : c4SafeChar c = true) :
    32 ≤ c.toNat ∧ c.toNat ≤ 126 ∧ c ≠ '"' ∧ c ≠ '\\' ∧ c ≠ bq ∧ c ≠ rb ∧ c ≠ ']' := by
  rw [c4SafeChar] at h
  exact of_decide_eq_true h

theorem c4SafeVal_render_mem (v : JVal) (h : c4SafeVal v = true) :
    ∀ c ∈ render v, 32 ≤ c.toNat ∧ c.toNat ≤ 126 ∧ c ≠ bq ∧ c ≠ rb ∧ c ≠ ']' := by
  intro c hc
  cases v with
  | num n =>
    rcases intChars_mem n c hc with h1 | h1
    · subst h1; refine ⟨by decide, by decide, by decide, by decide, by decide⟩
    · have hd := of_decide_eq_true (by rw [isDigitChar] at h1; exact h1 :
        decide (48 ≤ c.toNat ∧ c.toNat ≤ 57) = true)
      refine ⟨by omega, by omega, ?_, ?_, ?_⟩
      · intro he; subst he; exact absurd hd (by decide)
      · intro he; subst he; exact absurd hd (by decide)
      · intro he; subst he; exact absurd hd (by decide)
  | str s =>
    rw [c4SafeVal] at h
    have hs : ∀ x ∈ s, c4SafeChar x = true := List.all_eq_true.mp h
    have hesc : escapeStr s = s := escapeStr_printable s fun x hx => by
      obtain ⟨a1, a2, a3, a4, a5, a6, a7⟩ := c4SafeChar_spec x (hs x hx)
      exact ⟨a1, a3, a4⟩
    rw [show render (JVal.str s) = '"' :: (escapeStr s ++ ['"']) from rfl, hesc] at hc
    rcases List.mem_cons.mp hc with h1 | h1
    · subst h1; refine ⟨by decide, by decide, by decide, by decide, by decide⟩
    · rcases List.mem_append.mp h1 with h2 | h2
      · obtain ⟨a1, a2, a3, a4, a5, a6, a7⟩ := c4SafeChar_spec c (hs c h2)
        exact ⟨a1, a2, a5, a6, a7⟩
      · rw [List.mem_singleton] at h2
        subst h2
        refine ⟨by decide, by decide, by decide, by decide, by decide⟩
  | null => exact Bool.noConfusion h
  | bool b => exact Bool.noConfusion h
  | arr es => exact Bool.noConfusion h
  | obj gs => exact Bool.noConfusion h

theorem c4Safe_render_mem (fs : List (List Char × JVal)) (h : c4SafeFields fs = true) :
    ∀ c ∈ renderFields fs,
      32 ≤ c.toNat ∧ c.toNat ≤ 126 ∧ c ≠ bq ∧ c ≠ rb ∧ c ≠ ']' := by
  induction fs with
  | nil => intro c hc; exact absurd hc (List.not_mem_nil c)
  | cons kv fs ih =>
    rw [c4SafeFields, List.all_cons, Bool.and_eq_true] at h
    obtain ⟨hkv, hfs⟩ := h
    rw [Bool.and_eq_true] at hkv
    obtain ⟨k, v⟩ := kv
    have hkey : ∀ c ∈ k, c4SafeChar c = true := List.all_eq_true.mp hkv.1
    have hesc : escapeStr k = k := escapeStr_printable k fun x hx => by
      obtain ⟨a1, a2, a3, a4, a5, a6, a7⟩ := c4SafeChar_spec x (hkey x hx)
      exact ⟨a1, a3, a4⟩
    have hval := c4SafeVal_render_mem v hkv.2
    have hfield : ∀ c ∈ '"' :: (escapeStr k ++ '"' :: ':' :: render v),
        32 ≤ c.toNat ∧ c.toNat ≤ 126 ∧ c ≠ bq ∧ c ≠ rb ∧ c ≠ ']' := by
      intro c hc
      rw [hesc] at hc
      rcases List.mem_cons.mp hc with h1 | h1
      · subst h1; refine ⟨by decide, by decide, by decide, by decide, by decide⟩
      · rcases List.mem_append.mp h1 with h2 | h2
        · obtain ⟨a1, a2, a3, a4, a5, a6, a7⟩ := c4SafeChar_spec c (hkey c h2)
          exact ⟨a1, a2, a5, a6, a7⟩
        · rcases List.mem_cons.mp h2 with h3 | h3
          · subst h3; refine ⟨by decide, by decide, by decide, by decide, by decide⟩
          · rcases List.mem_cons.mp h3 with h4 | h4
            · subst h4; refine ⟨by decide, by decide, by decide, by decide, by decide⟩
            · exact hval c h4
    intro c hc
    by_cases hfse : fs = []
    · subst hfse
      exact hfield c hc
    · obtain ⟨kv2, fs2, rfl⟩ : ∃ kv2 fs2, fs = kv2 :: fs2 := by
        cases fs with
        | nil => exact absurd rfl hfse
        | cons a b => exact ⟨a, b, rfl⟩
      rw [show renderFields ((k, v) :: kv2 :: fs2) =
        ('"' :: (escapeStr k ++ '"' :: ':' :: render v)) ++
          ',' :: renderFields (kv2 :: fs2) from rfl] at hc
      rcases List.mem_append.mp hc with h1 | h1
      · exact hfield c h1
      · rcases List.mem_cons.mp h1 with h2 | h2
        · subst h2; refine ⟨by decide, by decide, by decide, by decide, by decide⟩
        · exact ih hfs c h2

theorem splitFence_none (l : List Char) (h : bq ∉ l) : splitFence l = none := by
  induction l with
  | nil => rfl
  | cons a l ih =>
    have ha : a ≠ bq := fun he => h (he ▸ List.mem_cons_self a l)
    have ht : bq ∉ l := fun hm => h (List.mem_cons_of_mem a hm)
    cases l with
    | nil => rfl
    | cons b l2 =>
      cases l2 with
      | nil => rfl
      | cons c l3 =>
        rw [splitFence, if_neg (fun hc => ha hc.1), ih ht]
        rfl

theorem splitFence_cons (a : Char) (b c : Char) (l : List Char) (ha : a ≠ bq) :
    splitFence (a :: b :: c :: l) =
      (splitFence (b :: c :: l)).map fun p => (a :: p.1, p.2) := by
  rw [splitFence, if_neg fun hc => ha hc.1]

theorem splitFence_append (x y : List Char) (hx : bq ∉ x) :
    splitFence (x ++ (bq :: bq :: bq :: y)) = some (x, y) := by
  induction x with
  | nil =>
    show splitFence (bq :: bq :: bq :: y) = some ([], y)
    rw [splitFence, if_pos ⟨rfl, rfl, rfl⟩]
  | cons a x ih =>
    have ha : a ≠ bq := fun he => hx (he ▸ List.mem_cons_self a x)
    have ht : bq ∉ x := fun hm => hx (List.mem_cons_of_mem a hm)
    rw [List.cons_append]
    obtain ⟨b, c, l, he⟩ : ∃ b c l, x ++ (bq :: bq :: bq :: y) = b :: c :: l := by
      cases x with
      | nil => exact ⟨bq, bq, bq :: y, rfl⟩
      | cons b x2 =>
        cases x2 with
        | nil => exact ⟨b, bq, bq :: bq :: y, rfl⟩
        | cons c x3 => exact ⟨b, c, x3 ++ (bq :: bq :: bq :: y), rfl⟩
    rw [he, splitFence_cons a b c l ha, ← he, ih ht]
    rfl

theorem stripFencesGo_none (f : Nat) (l : List Char) (h : bq ∉ l) :
    stripFencesGo f l = l := by
  cases f with
  | zero => rfl
  | succ f => rw [stripFencesGo, splitFence_none l h]

theorem stripFences_none (l : List Char) (h : bq ∉ l) : stripFences l = l :=
  stripFencesGo_none l.length l h

theorem dropTrailingWs_append (x : List Char) (c0 : Char) (hc : isWsJs c0 = false) :
    dropTrailingWs ((x ++ [c0]) ++ ['\n']) = x ++ [c0] := by
  rw [dropTrailingWs, List.reverse_append, List.reverse_append]
  show List.reverse (List.dropWhile isWsJs ('\n' :: (c0 :: x.reverse))) = _
  rw [List.dropWhile_cons]
  simp only [show isWsJs '\n' = true from rfl, if_pos]
  rw [List.dropWhile_cons, hc]
  simp

theorem stripFences_fenceWrap (tag : Bool) (x : List Char) (c0 : Char)
    (hbq : bq ∉ x ++ [c0]) (hc0ws : isWsJs c0 = false)
    (hheadws : ∀ d t, x ++ [c0] = d :: t → isWsJs d = false) :
    stripFences (fenceWrap tag (x ++ [c0])) = x ++ [c0] := by
  obtain ⟨f, hf⟩ : ∃ f, (fenceWrap tag (x ++ [c0])).length = f + 1 :=
    ⟨(fenceWrap tag (x ++ [c0])).length - 1, by rw [fenceWrap]; simp⟩
  rw [stripFences, hf, stripFencesGo]
  rw [show fenceWrap tag (x ++ [c0]) =
    bq :: bq :: bq :: ((if tag then ['j', 's', 'o', 'n'] else []) ++
      '\n' :: ((x ++ [c0]) ++ '\n' :: [bq, bq, bq])) from rfl]
  have hsplit1 : splitFence (bq :: bq :: bq :: ((if tag then ['j', 's', 'o', 'n'] else []) ++
      '\n' :: ((x ++ [c0]) ++ '\n' :: [bq, bq, bq]))) =
      some ([], (if tag then ['j', 's', 'o', 'n'] else []) ++
        '\n' :: ((x ++ [c0]) ++ '\n' :: [bq, bq, bq])) := by
    rw [splitFence, if_pos ⟨rfl, rfl, rfl⟩]
  have hbody : List.dropWhile isWsJs (dropJsonTag
      ((if tag then ['j', 's', 'o', 'n'] else []) ++
        '\n' :: ((x ++ [c0]) ++ '\n' :: [bq, bq, bq]))) =
      (x ++ [c0]) ++ '\n' :: [bq, bq, bq] := by
    have hdj : dropJsonTag ((if tag then ['j', 's', 'o', 'n'] else []) ++
        '\n' :: ((x ++ [c0]) ++ '\n' :: [bq, bq, bq])) =
        '\n' :: ((x ++ [c0]) ++ '\n' :: [bq, bq, bq]) := by
      cases tag <;> rfl
    rw [hdj, List.dropWhile_cons]
    simp only [show isWsJs '\n' = true from rfl, if_true]
    obtain ⟨d, t, hdt⟩ : ∃ d t, x ++ [c0] = d :: t := by
      cases hx : x ++ [c0] with
      | nil => exact absurd hx (by simp)
      | cons d t => exact ⟨d, t, rfl⟩
    rw [hdt, List.cons_append, List.dropWhile_cons, hheadws d t hdt]
    simp
  have hsplit2 : splitFence ((x ++ [c0]) ++ '\n' :: [bq, bq, bq]) =
      some ((x ++ [c0]) ++ ['\n'], []) := by
    rw [show (x ++ [c0]) ++ '\n' :: [bq, bq, bq] =
      ((x ++ [c0]) ++ ['\n']) ++ (bq :: bq :: bq :: ([] : List Char)) from by simp]
    refine splitFence_append _ _ ?_
    intro hm
    rcases List.mem_append.mp hm with h1 | h1
    · exact hbq h1
    · rw [List.mem_singleton] at h1; exact absurd h1.symm (by decide)
  simp only [hsplit1, hbody, hsplit2, dropTrailingWs_append x c0 hc0ws]
  rw [show stripFencesGo f [] = [] from by cases f <;> rfl]
  simp

theorem parseJson_bq_head (l : List Char) : parseJson (bq :: l) = none := by
  rw [parseJson]
  rw [show (bq :: l).length + 1 = (l.length + 1) + 1 from rfl]
  rw [parseVal]
  rw [skipWs_cons bq l (by decide)]
  simp +decide only [ite_true, ite_false]

theorem stripBeforeBrace_head_lb (t : List Char) :
    stripBeforeBrace (lb :: t) = lb :: t := by
  rw [stripBeforeBrace, if_pos]
  · rw [List.dropWhile_cons]
    simp +decide
  · rw [List.any_cons]
    simp +decide

theorem stripAfterBrace_clean (l : List Char) (h : ∀ c ∈ l, c ≠ rb ∧ c ≠ ']') :
    stripAfterBrace (l ++ [rb]) = l ++ [rb] := by
  induction l with
  | nil => decide
  | cons a l ih =>
    have ha := h a (List.mem_cons_self a l)
    rw [List.cons_append, stripAfterBrace]
    have hneg : ¬((a = rb ∨ a = ']') ∧ ']' ∉ l ++ [rb]) := by
      intro hcond
      rcases hcond.1 with h1 | h1
      · exact ha.1 h1
      · exact ha.2 h1
    rw [if_neg hneg, ih fun c hc => h c (List.mem_cons_of_mem a hc)]

theorem stripControl_clean (l : List Char) (h : ∀ c ∈ l, isCtrlJs c = false) :
    stripControl l = l := by
  rw [stripControl]
  refine List.filter_eq_self.mpr ?_
  intro c hc
  simp [h c hc]

/-- C4 (amended): for every flat object value whose keys and string members
use printable ASCII without `"`, `\`, backquote, `\x7d` or `]`, and whose
member values are integers or such strings, a reply wrapping its JSON text in
Markdown code fences (with or without the `json` tag) is repaired by the
cleanup to a string that parses to the same object value.  (For general
objects this fails: see the counterexample, where the replacement of groq.ts
line 301 truncates any nested object.) -/
theorem c4_amended (fs : List (List Char × JVal)) (tag : Bool)
    (h : c4SafeFields fs = true) :
    cleanupJson (fenceWrap tag (render (JVal.obj fs))) = Except.ok (render (JVal.obj fs)) ∧
    parseJson (render (JVal.obj fs)) = some (JVal.obj fs) := by
  have hmem := c4Safe_render_mem fs h
  have hj : render (JVal.obj fs) = (lb :: renderFields fs) ++ [rb] := by
    show lb :: (renderFields fs ++ [rb]) = _
    simp
  have hx : ∀ c ∈ (lb :: renderFields fs) ++ [rb],
      32 ≤ c.toNat ∧ c.toNat ≤ 126 ∧ c ≠ bq := by
    intro c hc
    rcases List.mem_append.mp hc with h1 | h1
    · rcases List.mem_cons.mp h1 with h2 | h2
      · subst h2; exact ⟨by decide, by decide, by decide⟩
      · obtain ⟨a1, a2, a3, a4, a5⟩ := hmem c h2
        exact ⟨a1, a2, a3⟩
    · rw [List.mem_singleton] at h1
      subst h1
      exact ⟨by decide, by decide, by decide⟩
  have h1 : parseJson (fenceWrap tag (render (JVal.obj fs))) = none := parseJson_bq_head _
  have hsf : stripFences (fenceWrap tag (render (JVal.obj fs))) = render (JVal.obj fs) := by
    rw [hj]
    refine stripFences_fenceWrap tag (lb :: renderFields fs) rb ?_ (by decide) ?_
    · intro hm
      obtain ⟨_, _, h3⟩ := hx bq hm
      exact h3 rfl
    · intro d t hdt
      rw [List.cons_append] at hdt
      obtain ⟨h2, -⟩ := (List.cons.injEq _ _ _ _).mp hdt
      rw [← h2]
      decide
  have hsbb : stripBeforeBrace (render (JVal.obj fs)) = render (JVal.obj fs) := by
    rw [show render (JVal.obj fs) = lb :: (renderFields fs ++ [rb]) from rfl]
    exact stripBeforeBrace_head_lb _
  have hsab : stripAfterBrace (render (JVal.obj fs)) = render (JVal.obj fs) := by
    rw [hj]
    refine stripAfterBrace_clean _ ?_
    intro c hc
    rcases List.mem_cons.mp hc with h2 | h2
    · subst h2; exact ⟨by decide, by decide⟩
    · obtain ⟨_, _, _, a4, a5⟩ := hmem c h2
      exact ⟨a4, a5⟩
  have hsc : stripControl (render (JVal.obj fs)) = render (JVal.obj fs) := by
    rw [hj]
    refine stripControl_clean _ ?_
    intro c hc
    obtain ⟨a1, a2, _⟩ := hx c hc
    rw [isCtrlJs]
    exact decide_eq_false (by omega)
  have hrt : parseJson (render (JVal.obj fs)) = some (JVal.obj fs) := parseJson_render _
  refine ⟨?_, hrt⟩
  rw [cleanupJson, h1]
  simp only [hsf, hsbb, hsab, hsc, hrt]

/-- Witness for c4_amended at the concrete flat object \x7b"a": 1\x7d wrapped
in a json-tagged Markdown fence. -/
theorem c4_amended_witness :
    c4SafeFields [(['a'], JVal.num 1)] = true ∧
    (cleanupJson (fenceWrap true (render (JVal.obj [(['a'], JVal.num 1)]))) =
        Except.ok (render (JVal.obj [(['a'], JVal.num 1)])) ∧
      parseJson (render (JVal.obj [(['a'], JVal.num 1)])) =
        some (JVal.obj [(['a'], JVal.num 1)])) :=
  ⟨by decide, c4_amended [(['a'], JVal.num 1)] true (by decide)⟩

/-- C4 counterexample: the reply consisting of the valid JSON object text
\x7b"a": \x7b"b": 1\x7d\x7d wrapped in json-tagged Markdown code fences is a
valid instance of the claim, yet cleanupJson rejects it: the replacement of
groq.ts line 301 (pattern ([\x7d\x5c]])[^\x7d\x5c]]*$) deletes the outer
closing brace of every nested object, so the "repaired" string fails to parse
and the call throws the invalid-JSON error. -/
theorem c4_counterexample :
    parseJson (render (JVal.obj [(['a'], JVal.obj [(['b'], JVal.num 1)])])) =
      some (JVal.obj [(['a'], JVal.obj [(['b'], JVal.num 1)])]) ∧
    cleanupJson (fenceWrap true (render (JVal.obj [(['a'], JVal.obj [(['b'], JVal.num 1)])]))) =
      Except.error (CleanErr.invalidJsonResponse
        [lb, '"', 'a', '"', ':', lb, '"', 'b', '"', ':', '1', rb]) := by
  have hre : render (JVal.obj [(['a'], JVal.obj [(['b'], JVal.num 1)])]) =
      [lb, '"', 'a', '"', ':', lb, '"', 'b', '"', ':', '1', rb, rb] := by
    simp +decide [render, renderFields, escapeStr, escapeChar, intChars, natDigits, digitChar]
  rw [hre]
  exact ⟨rfl, rfl⟩

/-! ### Claim C5: trailing commas -/

theorem notWsJs_of_toNat (c : Char) (h : 33 ≤ c.toNat) : isWsJs c = false := by
  rw [isWsJs]
  refine decide_eq_false ?_
  intro hor
  rcases hor with h1 | h1 | h1 | h1 | h1 | h1 <;> (subst h1; revert h; decide)

theorem c5SafeChar_toNat (c : Char) (h : c5SafeChar c = true) :
    65 ≤ c.toNat ∧ c.toNat ≤ 122 ∧ (c.toNat ≤ 90 ∨ 97 ≤ c.toNat) := by
  rw [c5SafeChar] at h
  rcases of_decide_eq_true h with ⟨h1, h2⟩ | ⟨h1, h2⟩ <;> exact ⟨by omega, by omega, by omega⟩

theorem isDigitChar_toNat (c : Char) (h : isDigitChar c = true) :
    48 ≤ c.toNat ∧ c.toNat ≤ 57 := by
  rw [isDigitChar] at h
  exact of_decide_eq_true h

theorem c5mem_facts (c : Char)
    (h : c = '"' ∨ c = ':' ∨ c = ',' ∨ c5SafeChar c = true ∨ isDigitChar c = true) :
    isWsJs c = false ∧ isCtrlJs c = false ∧ c ≠ bq ∧ c ≠ rb ∧ c ≠ ']' ∧ c ≠ lb ∧
      32 ≤ c.toNat := by
  rcases h with h1 | h1 | h1 | h1 | h1
  · subst h1
    exact ⟨by decide, by decide, by decide, by decide, by decide, by decide, by decide⟩
  · subst h1
    exact ⟨by decide, by decide, by decide, by decide, by decide, by decide, by decide⟩
  · subst h1
    exact ⟨by decide, by decide, by decide, by decide, by decide, by decide, by decide⟩
  · obtain ⟨a1, a2, a3⟩ := c5SafeChar_toNat c h1
    refine ⟨notWsJs_of_toNat c (by omega), ?_, ?_, ?_, ?_, ?_, by omega⟩
    · rw [isCtrlJs]; exact decide_eq_false (by omega)
    · intro he; subst he; exact absurd a3 (by decide)
    · intro he; subst he; exact absurd a2 (by decide)
    · intro he; subst he; exact absurd a3 (by decide)
    · intro he; subst he; exact absurd a2 (by decide)
  · obtain ⟨a1, a2⟩ := isDigitChar_toNat c h1
    refine ⟨notWsJs_of_toNat c (by omega), ?_, ?_, ?_, ?_, ?_, by omega⟩
    · rw [isCtrlJs]; exact decide_eq_false (by omega)
    · intro he; subst he; exact absurd a2 (by decide)
    · intro he; subst he; exact absurd a2 (by decide)
    · intro he; subst he; exact absurd a2 (by decide)
    · intro he; subst he; exact absurd a2 (by decide)

theorem c5SafeStr_mem (k : List Char) (hk : c5SafeStr k = true) :
    ∀ x ∈ k, c5SafeChar x = true := List.all_eq_true.mp hk

theorem c5_escapeStr (k : List Char) (hk : c5SafeStr k = true) : escapeStr k = k := by
  refine escapeStr_printable k fun x hx => ?_
  obtain ⟨a1, a2, a3⟩ := c5SafeChar_toNat x (c5SafeStr_mem k hk x hx)
  refine ⟨by omega, ?_, ?_⟩
  · intro he; subst he; exact absurd a1 (by decide)
  · intro he; subst he; exact absurd a3 (by decide)

theorem c5SafeVal_render_mem (v : JVal) (h : c5SafeVal v = true) :
    ∀ c ∈ render v, c = '"' ∨ c5SafeChar c = true ∨ isDigitChar c = true := by
  cases v with
  | num n =>
    intro c hc
    rw [show render (JVal.num n) = intChars n from rfl, intChars] at hc
    rw [show c5SafeVal (JVal.num n) = decide (0 ≤ n) from rfl] at h
    have hn : ¬ n < 0 := by have := of_decide_eq_true h; omega
    rw [if_neg hn] at hc
    exact Or.inr (Or.inr (natDigits_all_digit n.natAbs c hc))
  | str s =>
    intro c hc
    rw [show render (JVal.str s) = '"' :: (escapeStr s ++ ['"']) from rfl,
      c5_escapeStr s h] at hc
    rcases List.mem_cons.mp hc with h1 | h1
    · exact Or.inl h1
    · rcases List.mem_append.mp h1 with h2 | h2
      · exact Or.inr (Or.inl (c5SafeStr_mem s h c h2))
      · rw [List.mem_singleton] at h2; exact Or.inl h2
  | null => exact Bool.noConfusion h
  | bool b => exact Bool.noConfusion h
  | arr es => exact Bool.noConfusion h
  | obj gs => exact Bool.noConfusion h

theorem c5_render_mem (fs : List (List Char × JVal)) (h : c5SafeFields fs = true) :
    ∀ c ∈ renderFields fs,
      c = '"' ∨ c = ':' ∨ c = ',' ∨ c5SafeChar c = true ∨ isDigitChar c = true := by
  induction fs with
  | nil => intro c hc; exact absurd hc (List.not_mem_nil c)
  | cons kv fs ih =>
    rw [c5SafeFields, List.all_cons, Bool.and_eq_true] at h
    obtain ⟨hkv, hfs⟩ := h
    rw [Bool.and_eq_true] at hkv
    obtain ⟨k, v⟩ := kv
    have hval := c5SafeVal_render_mem v hkv.2
    have hfield : ∀ c ∈ '"' :: (escapeStr k ++ '"' :: ':' :: render v),
        c = '"' ∨ c = ':' ∨ c = ',' ∨ c5SafeChar c = true ∨ isDigitChar c = true := by
      intro c hc
      rw [c5_escapeStr k hkv.1] at hc
      rcases List.mem_cons.mp hc with h1 | h1
      · exact Or.inl h1
      · rcases List.mem_append.mp h1 with h2 | h2
        · exact Or.inr (Or.inr (Or.inr (Or.inl (c5SafeStr_mem k hkv.1 c h2))))
        · rcases List.mem_cons.mp h2 with h3 | h3
          · exact Or.inl h3
          · rcases List.mem_cons.mp h3 with h4 | h4
            · exact Or.inr (Or.inl h4)
            · rcases hval c h4 with h5 | h5 | h5
              · exact Or.inl h5
              · exact Or.inr (Or.inr (Or.inr (Or.inl h5)))
              · exact Or.inr (Or.inr (Or.inr (Or.inr h5)))
    intro c hc
    by_cases hfse : fs = []
    · subst hfse
      exact hfield c hc
    · obtain ⟨kv2, fs2, rfl⟩ : ∃ kv2 fs2, fs = kv2 :: fs2 := by
        cases fs with
        | nil => exact absurd rfl hfse
        | cons a b => exact ⟨a, b, rfl⟩
      rw [show renderFields ((k, v) :: kv2 :: fs2) =
        ('"' :: (escapeStr k ++ '"' :: ':' :: render v)) ++
          ',' :: renderFields (kv2 :: fs2) from rfl] at hc
      rcases List.mem_append.mp hc with h1 | h1
      · exact hfield c h1
      · rcases List.mem_cons.mp h1 with h2 | h2
        · exact Or.inr (Or.inr (Or.inl h2))
        · exact ih hfs c h2

theorem trig_free (c : Char) (h : c = '"' ∨ c5SafeChar c = true ∨ isDigitChar c = true) :
    c ≠ lb ∧ c ≠ ',' ∧ c ≠ ':' := by
  rcases h with h1 | h1 | h1
  · subst h1; exact ⟨by decide, by decide, by decide⟩
  · obtain ⟨a1, a2, a3⟩ := c5SafeChar_toNat c h1
    refine ⟨?_, ?_, ?_⟩ <;> (intro he; subst he)
    · exact absurd a2 (by decide)
    · exact absurd a1 (by decide)
    · exact absurd a1 (by decide)
  · obtain ⟨a1, a2⟩ := isDigitChar_toNat c h1
    refine ⟨?_, ?_, ?_⟩ <;> (intro he; subst he)
    · exact absurd a2 (by decide)
    · exact absurd a1 (by decide)
    · exact absurd a2 (by decide)

theorem chain_c5R_vac (l : List Char) (h : ∀ c ∈ l, c ≠ lb ∧ c ≠ ',' ∧ c ≠ ':') :
    List.Chain' c5R l := by
  induction l with
  | nil => exact List.chain'_nil
  | cons a l ih =>
    cases l with
    | nil => exact List.chain'_singleton a
    | cons b t =>
      rw [List.chain'_cons]
      obtain ⟨h1, h2, h3⟩ := h a (List.mem_cons_self a _)
      refine ⟨⟨fun hor => ?_, fun hc => absurd hc h3⟩,
        ih fun c hc => h c (List.mem_cons_of_mem a hc)⟩
      rcases hor with he | he
      · exact absurd he h1
      · exact absurd he h2

theorem chain_c5R_val (v : JVal) (hv : c5SafeVal v = true) :
    List.Chain' c5R (render v) := by
  apply chain_c5R_vac
  intro c hc
  exact trig_free c (c5SafeVal_render_mem v hv c hc)

theorem render_head_c5 (v : JVal) (hv : c5SafeVal v = true) :
    ∃ c cs, render v = c :: cs ∧ (c = '"' ∨ isDigitChar c = true) := by
  cases v with
  | num n =>
    rw [show c5SafeVal (JVal.num n) = decide (0 ≤ n) from rfl] at hv
    have hn : ¬ n < 0 := by have := of_decide_eq_true hv; omega
    obtain ⟨c, cs, hnd⟩ := natDigits_cons n.natAbs
    refine ⟨c, cs, ?_, Or.inr ?_⟩
    · rw [show render (JVal.num n) = intChars n from rfl, intChars, if_neg hn, hnd]
    · exact natDigits_all_digit n.natAbs c (hnd ▸ List.mem_cons_self c cs)
  | str s => exact ⟨'"', _, rfl, Or.inl rfl⟩
  | null => exact Bool.noConfusion hv
  | bool b => exact Bool.noConfusion hv
  | arr es => exact Bool.noConfusion hv
  | obj gs => exact Bool.noConfusion hv

theorem render_last_c5 (v : JVal) (hv : c5SafeVal v = true) :
    ∃ c, (render v).getLast? = some c ∧ (c = '"' ∨ isDigitChar c = true) := by
  cases v with
  | num n =>
    rw [show c5SafeVal (JVal.num n) = decide (0 ≤ n) from rfl] at hv
    have hn : ¬ n < 0 := by have := of_decide_eq_true hv; omega
    have hne := natDigits_ne_nil n.natAbs
    refine ⟨(natDigits n.natAbs).getLast hne, ?_, Or.inr ?_⟩
    · rw [show render (JVal.num n) = intChars n from rfl, intChars, if_neg hn]
      exact List.getLast?_eq_getLast _ hne
    · exact natDigits_all_digit n.natAbs _ (List.getLast_mem hne)
  | str s =>
    refine ⟨'"', ?_, Or.inl rfl⟩
    rw [show render (JVal.str s) = '"' :: (escapeStr s ++ ['"']) from rfl,
      show '"' :: (escapeStr s ++ ['"']) = ('"' :: escapeStr s) ++ ['"'] by simp,
      List.getLast?_append_cons]
    rfl
  | null => exact Bool.noConfusion hv
  | bool b => exact Bool.noConfusion hv
  | arr es => exact Bool.noConfusion hv
  | obj gs => exact Bool.noConfusion hv

theorem chain_c5R_segment (k : List Char) (v : JVal) (hk : c5SafeStr k = true)
    (hv : c5SafeVal v = true) :
    List.Chain' c5R ('"' :: (escapeStr k ++ '"' :: ':' :: render v)) := by
  rw [c5_escapeStr k hk]
  rw [show '"' :: (k ++ '"' :: ':' :: render v) =
    (('"' :: k) ++ ['"']) ++ (':' :: render v) by simp]
  rw [List.chain'_append]
  refine ⟨?_, ?_, ?_⟩
  · apply chain_c5R_vac
    intro c hc
    rcases List.mem_append.mp hc with h1 | h1
    · rcases List.mem_cons.mp h1 with h2 | h2
      · exact trig_free c (Or.inl h2)
      · exact trig_free c (Or.inr (Or.inl (c5SafeStr_mem k hk c h2)))
    · rw [List.mem_singleton] at h1
      exact trig_free c (Or.inl h1)
  · obtain ⟨c, cs, hrv, hcd⟩ := render_head_c5 v hv
    rw [hrv, List.chain'_cons]
    refine ⟨⟨fun hor => absurd hor (by decide), fun _ => hcd⟩, ?_⟩
    rw [← hrv]
    exact chain_c5R_val v hv
  · intro x hx y hy
    rw [List.getLast?_append_cons] at hx
    simp only [List.getLast?_singleton, Option.mem_def, Option.some.injEq] at hx
    simp only [List.head?_cons, Option.mem_def, Option.some.injEq] at hy
    subst hx; subst hy
    exact ⟨fun hor => absurd hor (by decide), fun hc => absurd hc (by decide)⟩

theorem chain_c5R_renderFields (fs : List (List Char × JVal)) (h : c5SafeFields fs = true) :
    List.Chain' c5R (renderFields fs) := by
  induction fs with
  | nil => exact List.chain'_nil
  | cons kv fs ih =>
    rw [c5SafeFields, List.all_cons, Bool.and_eq_true] at h
    obtain ⟨hkv, hfs⟩ := h
    rw [Bool.and_eq_true] at hkv
    obtain ⟨k, v⟩ := kv
    by_cases hfse : fs = []
    · subst hfse
      exact chain_c5R_segment k v hkv.1 hkv.2
    · obtain ⟨kv2, fs2, rfl⟩ : ∃ kv2 fs2, fs = kv2 :: fs2 := by
        cases fs with
        | nil => exact absurd rfl hfse
        | cons a b => exact ⟨a, b, rfl⟩
      rw [show renderFields ((k, v) :: kv2 :: fs2) =
        ('"' :: (escapeStr k ++ '"' :: ':' :: render v)) ++
          ',' :: renderFields (kv2 :: fs2) from rfl]
      rw [List.chain'_append]
      refine ⟨chain_c5R_segment k v hkv.1 hkv.2, ?_, ?_⟩
      · obtain ⟨t, ht⟩ := renderFields_head (kv2 :: fs2) (by simp)
        rw [ht, List.chain'_cons]
        refine ⟨⟨fun _ => rfl, fun hc => absurd hc (by decide)⟩, ?_⟩
        rw [← ht]
        exact ih hfs
      · intro x hx y hy
        obtain ⟨c0, hc0, hcd⟩ := render_last_c5 v hkv.2
        rw [show '"' :: (escapeStr k ++ '"' :: ':' :: render v) =
          ('"' :: (escapeStr k ++ ['"', ':'])) ++ render v by simp] at hx
        have hrne : render v ≠ [] := by
          obtain ⟨c1, cs1, hr1, _⟩ := render_head_c5 v hkv.2
          rw [hr1]; exact List.cons_ne_nil c1 cs1
        rw [List.getLast?_append_of_ne_nil _ hrne, hc0] at hx
        simp only [Option.mem_def, Option.some.injEq] at hx
        simp only [List.head?_cons, Option.mem_def, Option.some.injEq] at hy
        subst hx; subst hy
        obtain ⟨b1, b2, b3⟩ := trig_free c0 (by
          rcases hcd with hq | hd
          · exact Or.inl hq
          · exact Or.inr (Or.inr hd))
        refine ⟨fun hor => ?_, fun hc => absurd hc b3⟩
        rcases hor with he | he
        · exact absurd he b1
        · exact absurd he b2

theorem newlinesToSpaces_none (l : List Char) (h : ∀ c ∈ l, ¬ c = '\n') :
    newlinesToSpaces l = l := by
  induction l with
  | nil => rfl
  | cons a l ih =>
    rw [newlinesToSpaces, List.map_cons]
    rw [if_neg (h a (List.mem_cons_self a l))]
    rw [show (List.map (fun c => if c = '\n' then ' ' else c) l) = newlinesToSpaces l from rfl,
      ih fun c hc => h c (List.mem_cons_of_mem a hc)]

theorem collapseWsGo_none (f : Nat) :
    ∀ l, (∀ c ∈ l, isWsJs c = false) → collapseWsGo f l = l := by
  induction f with
  | zero => intro l _; rfl
  | succ f ih =>
    intro l h
    cases l with
    | nil => rfl
    | cons c rest =>
      rw [collapseWsGo]
      rw [if_neg (by rw [h c (List.mem_cons_self c rest)]; exact Bool.false_ne_true)]
      rw [ih rest fun x hx => h x (List.mem_cons_of_mem c hx)]

theorem quoteBareKeysGo_chain (f : Nat) :
    ∀ l, List.Chain' delimR l → quoteBareKeysGo f l = l := by
  induction f with
  | zero => intro l _; rfl
  | succ f ih =>
    intro l hchain
    cases l with
    | nil => rfl
    | cons c rest =>
      by_cases hc : c = lb ∨ c = ','
      · cases rest with
        | nil =>
          rcases hc with he | he <;> subst he <;>
            simp +decide only [quoteBareKeysGo, List.takeWhile_nil, List.dropWhile_nil,
              ite_true, ih [] List.chain'_nil]
        | cons d t =>
          have hd : d = '"' ∨ d = rb := (List.chain'_cons.mp hchain).1 hc
          have hdw : isWsJs d = false := by rcases hd with he | he <;> (subst he; decide)
          have hdword : isWordChar d = false := by
            rcases hd with he | he <;> (subst he; decide)
          have h1 : (d :: t).dropWhile isWsJs = d :: t := by
            rw [List.dropWhile_cons, hdw]; simp
          have h2 : (d :: t).takeWhile isWordChar = [] := by
            rw [List.takeWhile_cons, hdword]; simp
          have h3 := ih (d :: t) (List.Chain'.tail hchain)
          rcases hc with he | he <;> subst he <;>
            simp +decide only [quoteBareKeysGo, h1, h2, h3, ite_true]
      · have hrec := ih rest (List.Chain'.tail hchain)
        rw [quoteBareKeysGo, if_neg hc, hrec]

theorem fixSingleQuotesGo_chain (f : Nat) :
    ∀ l, List.Chain' colonR l → fixSingleQuotesGo f l = l := by
  induction f with
  | zero => intro l _; rfl
  | succ f ih =>
    intro l hchain
    cases l with
    | nil => rfl
    | cons c rest =>
      by_cases hc : c = ':'
      · cases rest with
        | nil =>
          subst hc
          simp +decide only [fixSingleQuotesGo, List.dropWhile_nil, ite_true,
            ih [] List.chain'_nil]
        | cons d t =>
          have hd : d = '"' ∨ isDigitChar d = true := (List.chain'_cons.mp hchain).1 hc
          have hdw : isWsJs d = false := by
            rcases hd with he | he
            · subst he; decide
            · exact notWsJs_of_toNat d (by have := isDigitChar_toNat d he; omega)
          have h1 : (d :: t).dropWhile isWsJs = d :: t := by
            rw [List.dropWhile_cons, hdw]; simp
          have hqne : ¬ d = squote := by
            rcases hd with he | he
            · subst he; decide
            · intro he2; subst he2; exact absurd (isDigitChar_toNat squote he).1 (by decide)
          have h3 := ih (d :: t) (List.Chain'.tail hchain)
          subst hc
          simp +decide only [fixSingleQuotesGo, h1, h3, ite_true, eq_false hqne, ite_false]
      · have hrec := ih rest (List.Chain'.tail hchain)
        rw [fixSingleQuotesGo, if_neg hc, hrec]

theorem fixMissingValueQuotesGo_chain (f : Nat) :
    ∀ l, List.Chain' colonR l → fixMissingValueQuotesGo f l = l := by
  induction f with
  | zero => intro l _; rfl
  | succ f ih =>
    intro l hchain
    cases l with
    | nil => rfl
    | cons c rest =>
      by_cases hc : c = ':'
      · cases rest with
        | nil =>
          subst hc
          simp +decide only [fixMissingValueQuotesGo, List.dropWhile_nil, ite_true,
            ih [] List.chain'_nil]
        | cons d t =>
          have hd : d = '"' ∨ isDigitChar d = true := (List.chain'_cons.mp hchain).1 hc
          have hdw : isWsJs d = false := by
            rcases hd with he | he
            · subst he; decide
            · exact notWsJs_of_toNat d (by have := isDigitChar_toNat d he; omega)
          have h1 : (d :: t).dropWhile isWsJs = d :: t := by
            rw [List.dropWhile_cons, hdw]; simp
          have hstart : isMVQStart d = false := by
            rw [isMVQStart]
            refine decide_eq_false fun hn => hn ?_
            rcases hd with he | he
            · subst he
              exact Or.inr (Or.inr (Or.inr (Or.inr (Or.inr (Or.inr (Or.inl rfl))))))
            · exact Or.inr (Or.inr (Or.inr (Or.inr (Or.inr (Or.inr (Or.inr (Or.inr he)))))))
          have h3 := ih (d :: t) (List.Chain'.tail hchain)
          subst hc
          simp +decide only [fixMissingValueQuotesGo, h1, h3, hstart, ite_true, ite_false,
            Bool.false_eq_true]
      · have hrec := ih rest (List.Chain'.tail hchain)
        rw [fixMissingValueQuotesGo, if_neg hc, hrec]

theorem fixTrailingCommasGo_strip :
    ∀ l, List.Chain' commaQuoteR l → ∀ f, l.length + 1 ≤ f →
      fixTrailingCommasGo f (l ++ [',', rb]) = l ++ [rb] := by
  intro l
  induction l with
  | nil =>
    intro _ f hf
    obtain ⟨g, rfl⟩ : ∃ g, f = g + 1 := ⟨f - 1, by omega⟩
    have hnil : fixTrailingCommasGo g [] = [] := by cases g <;> rfl
    simp +decide only [List.nil_append, fixTrailingCommasGo, List.dropWhile_cons,
      ite_true, ite_false, hnil]
  | cons a l ihl =>
    intro hchain f hf
    obtain ⟨g, rfl⟩ : ∃ g, f = g + 1 := ⟨f - 1, by omega⟩
    have hg : l.length + 1 ≤ g := by
      rw [List.length_cons] at hf; omega
    by_cases ha : a = ','
    · subst ha
      cases l with
      | nil =>
        have hrec := ihl List.chain'_nil g hg
        rw [List.nil_append] at hrec
        simp +decide only [List.cons_append, List.nil_append, fixTrailingCommasGo,
          List.dropWhile_cons, ite_true, ite_false, hrec]
      | cons b t =>
        have hb : b = '"' := (List.chain'_cons.mp hchain).1 rfl
        subst hb
        have hrec := ihl (List.Chain'.tail hchain) g hg
        rw [List.cons_append] at hrec
        simp +decide only [List.cons_append, fixTrailingCommasGo,
          List.dropWhile_cons, ite_true, ite_false, hrec]
    · have hrec := ihl (List.Chain'.tail hchain) g hg
      rw [List.cons_append, List.cons_append]
      rw [fixTrailingCommasGo]
      rw [if_neg ha, hrec]

theorem parseFields_rbHead (g : Nat) (rest : List Char) : parseFields g (rb :: rest) = none := by
  cases g with
  | zero => rfl
  | succ g =>
    rw [parseFields]
    simp +decide only [ite_false]

theorem parseFields_trailing :
    ∀ fs f rest, fs ≠ [] → fieldsNodes fs ≤ f →
      parseFields f (renderFields fs ++ (',' :: rb :: rest)) = none := by
  intro fs
  induction fs with
  | nil => intro f rest h; exact absurd rfl h
  | cons kv fs ihfs =>
    intro f rest _ hf
    obtain ⟨k, v⟩ := kv
    simp only [fieldsNodes] at hf
    obtain ⟨f, rfl⟩ : ∃ g, f = g + 1 := ⟨f - 1, by omega⟩
    by_cases hfs : fs = []
    · subst hfs
      have hIH : parseVal f (render v ++ (',' :: rb :: rest)) = some (v, ',' :: rb :: rest) :=
        parseVal_render v f _ (by omega) rfl
      have hrb : parseFields f (rb :: rest) = none := parseFields_rbHead f rest
      show parseFields (f + 1)
        (('"' :: (escapeStr k ++ '"' :: ':' :: render v)) ++ (',' :: rb :: rest)) = _
      simp only [List.cons_append, List.append_assoc]
      simp +decide only [parseFields, parseStringBody_escape,
        skipWs_cons ':' (render v ++ ',' :: rb :: rest) (by decide), hIH,
        skipWs_cons ',' (rb :: rest) (by decide),
        skipWs_cons rb rest (by decide), hrb, ite_true, ite_false]
      rfl
    · obtain ⟨kv2, fs2, rfl⟩ : ∃ kv2 fs2, fs = kv2 :: fs2 := by
        cases fs with
        | nil => exact absurd rfl hfs
        | cons a b => exact ⟨a, b, rfl⟩
      obtain ⟨t, ht⟩ := renderFields_head (kv2 :: fs2) (by simp)
      have hIH : parseVal f
          (render v ++ (',' :: (renderFields (kv2 :: fs2) ++ ',' :: rb :: rest))) =
          some (v, ',' :: (renderFields (kv2 :: fs2) ++ ',' :: rb :: rest)) :=
        parseVal_render v f _ (by omega) rfl
      have hrec : parseFields f (renderFields (kv2 :: fs2) ++ (',' :: rb :: rest)) = none :=
        ihfs f rest (by simp) (by omega)
      have hskip : skipWs (renderFields (kv2 :: fs2) ++ ',' :: rb :: rest) =
          renderFields (kv2 :: fs2) ++ ',' :: rb :: rest := by
        rw [ht]
        exact skipWs_cons '"' _ (by decide)
      show parseFields (f + 1)
        ((('"' :: (escapeStr k ++ '"' :: ':' :: render v)) ++
          ',' :: renderFields (kv2 :: fs2)) ++ (',' :: rb :: rest)) = _
      simp only [List.cons_append, List.append_assoc]
      simp +decide only [parseFields, parseStringBody_escape,
        skipWs_cons ':' _ (by decide), hIH,
        skipWs_cons ',' _ (by decide), hskip, hrec, ite_true, ite_false]
      rfl

theorem parseJson_renderTrailing (fs : List (List Char × JVal)) (hne : fs ≠ []) :
    parseJson (renderTrailing fs) = none := by
  obtain ⟨t, ht⟩ := renderFields_head fs hne
  have hsh : renderTrailing fs = lb :: ('"' :: (t ++ [',', rb])) := by
    rw [renderTrailing, ht]
    rfl
  have hflen : fieldsNodes fs ≤ (lb :: (renderFields fs ++ (',' :: rb :: []))).length := by
    have h1 := nodes_le_length (JVal.obj fs)
    rw [show nodes (JVal.obj fs) = 1 + fieldsNodes fs from rfl,
      show render (JVal.obj fs) = lb :: (renderFields fs ++ [rb]) from rfl] at h1
    simp only [List.length_cons, List.length_append] at h1 ⊢
    omega
  have hpf : parseFields ((lb :: ('"' :: (t ++ [',', rb]))).length)
      ('"' :: (t ++ [',', rb])) = none := by
    rw [show ('"' :: (t ++ [',', rb])) = (('"' :: t) ++ (',' :: rb :: [])) from rfl, ← ht]
    exact parseFields_trailing fs _ [] hne hflen
  rw [parseJson, hsh, parseVal.eq_def]
  simp only [skipWs_cons lb _ (by decide)]
  simp +decide only [ite_true, ite_false]
  simp only [skipWs_cons '"' (t ++ [',', rb]) (by decide)]
  simp +decide only [ite_true, ite_false, hpf]
  rfl

theorem extractBraces_wrapped (x : List Char) :
    extractBraces (lb :: (x ++ [rb])) = some (lb :: (x ++ [rb])) := by
  rw [extractBraces, List.dropWhile_cons]
  simp +decide only [ite_false]
  have hmem : rb ∈ x ++ [rb] := List.mem_append.mpr (Or.inr (List.mem_singleton.mpr rfl))
  rw [if_pos hmem]
  have hrev : (x ++ [rb]).reverse = rb :: x.reverse := by simp
  rw [hrev, List.dropWhile_cons]
  simp +decide only [ite_false]
  rw [← hrev, List.reverse_reverse]

theorem renderFields_last (fs : List (List Char × JVal)) (hne : fs ≠ [])
    (h : c5SafeFields fs = true) :
    ∃ c, (renderFields fs).getLast? = some c ∧ (c = '"' ∨ isDigitChar c = true) := by
  induction fs with
  | nil => exact absurd rfl hne
  | cons kv fs ih =>
    rw [c5SafeFields, List.all_cons, Bool.and_eq_true] at h
    obtain ⟨hkv, hfs⟩ := h
    rw [Bool.and_eq_true] at hkv
    obtain ⟨k, v⟩ := kv
    have hrne : render v ≠ [] := by
      obtain ⟨c1, cs1, hr1, _⟩ := render_head_c5 v hkv.2
      rw [hr1]
      exact List.cons_ne_nil c1 cs1
    by_cases hfse : fs = []
    · subst hfse
      obtain ⟨c0, hc0, hcd⟩ := render_last_c5 v hkv.2
      refine ⟨c0, ?_, hcd⟩
      rw [show renderFields [(k, v)] =
        ('"' :: (escapeStr k ++ ['"', ':'])) ++ render v by simp [renderFields]]
      rw [List.getLast?_append_of_ne_nil _ hrne]
      exact hc0
    · obtain ⟨kv2, fs2, rfl⟩ : ∃ kv2 fs2, fs = kv2 :: fs2 := by
        cases fs with
        | nil => exact absurd rfl hfse
        | cons a b => exact ⟨a, b, rfl⟩
      obtain ⟨c0, hc0, hcd⟩ := ih (by simp) hfs
      refine ⟨c0, ?_, hcd⟩
      rw [show renderFields ((k, v) :: kv2 :: fs2) =
        ('"' :: (escapeStr k ++ '"' :: ':' :: render v)) ++
          ',' :: renderFields (kv2 :: fs2) from rfl]
      rw [List.getLast?_append_cons]
      obtain ⟨t, ht⟩ := renderFields_head (kv2 :: fs2) (by simp)
      rw [ht, List.getLast?_cons_cons, ← ht]
      exact hc0

theorem chain_delim_T (fs : List (List Char × JVal)) (hne : fs ≠ [])
    (h : c5SafeFields fs = true) :
    List.Chain' delimR (lb :: (renderFields fs ++ [',', rb])) := by
  obtain ⟨t, ht⟩ := renderFields_head fs hne
  have hch : List.Chain' c5R (renderFields fs) := chain_c5R_renderFields fs h
  rw [List.chain'_cons']
  constructor
  · intro y hy
    rw [ht] at hy
    simp only [List.cons_append, List.head?_cons, Option.mem_def, Option.some.injEq] at hy
    subst hy
    exact fun _ => Or.inl rfl
  · rw [List.chain'_append]
    refine ⟨hch.imp fun a b hab htrig => Or.inl (hab.1 htrig), ?_, ?_⟩
    · exact List.chain'_cons.mpr ⟨fun _ => Or.inr rfl, List.chain'_singleton rb⟩
    · intro x hx y hy
      obtain ⟨c0, hc0, hcd⟩ := renderFields_last fs hne h
      rw [hc0] at hx
      simp only [List.head?_cons, Option.mem_def, Option.some.injEq] at hx hy
      subst hx
      subst hy
      obtain ⟨b1, b2, _⟩ := trig_free c0 (by
        rcases hcd with hq | hd
        · exact Or.inl hq
        · exact Or.inr (Or.inr hd))
      intro htrig
      rcases htrig with he | he
      · exact absurd he b1
      · exact absurd he b2

theorem chain_colon_T (fs : List (List Char × JVal)) (hne : fs ≠ [])
    (h : c5SafeFields fs = true) (s : List Char) (hs : List.Chain' colonR s) :
    List.Chain' colonR (lb :: (renderFields fs ++ s)) := by
  obtain ⟨t, ht⟩ := renderFields_head fs hne
  have hch : List.Chain' c5R (renderFields fs) := chain_c5R_renderFields fs h
  rw [List.chain'_cons']
  constructor
  · intro y hy
    exact fun hc => absurd hc (by decide)
  · rw [List.chain'_append]
    refine ⟨hch.imp fun a b hab => hab.2, hs, ?_⟩
    intro x hx y hy
    obtain ⟨c0, hc0, hcd⟩ := renderFields_last fs hne h
    rw [hc0] at hx
    simp only [Option.mem_def, Option.some.injEq] at hx
    subst hx
    obtain ⟨_, _, b3⟩ := trig_free c0 (by
      rcases hcd with hq | hd
      · exact Or.inl hq
      · exact Or.inr (Or.inr hd))
    exact fun hc => absurd hc b3

theorem chain_comma_head (fs : List (List Char × JVal)) (h : c5SafeFields fs = true) :
    List.Chain' commaQuoteR (lb :: renderFields fs) := by
  have hch : List.Chain' c5R (renderFields fs) := chain_c5R_renderFields fs h
  rw [List.chain'_cons']
  refine ⟨fun y hy hc => absurd hc (by decide), ?_⟩
  exact hch.imp fun a b hab hc => hab.1 (Or.inr hc)

theorem aggressiveClean_renderTrailing (fs : List (List Char × JVal)) (hne : fs ≠ [])
    (h : c5SafeFields fs = true) :
    aggressiveClean (renderTrailing fs) = render (JVal.obj fs) := by
  have hnoWs : ∀ c ∈ renderTrailing fs, isWsJs c = false := by
    intro c hc
    rw [renderTrailing] at hc
    rcases List.mem_cons.mp hc with h1 | h1
    · subst h1; decide
    · rcases List.mem_append.mp h1 with h2 | h2
      · exact (c5mem_facts c (c5_render_mem fs h c h2)).1
      · rcases List.mem_cons.mp h2 with h3 | h3
        · subst h3; decide
        · rw [List.mem_singleton] at h3; subst h3; decide
  have hnoNl : ∀ c ∈ renderTrailing fs, ¬ c = '\n' := by
    intro c hc he
    subst he
    exact absurd (hnoWs '\n' hc) (by decide)
  have h1 : newlinesToSpaces (renderTrailing fs) = renderTrailing fs :=
    newlinesToSpaces_none _ hnoNl
  have h2 : collapseWs (renderTrailing fs) = renderTrailing fs := by
    rw [collapseWs]
    exact collapseWsGo_none _ _ hnoWs
  have h3 : quoteBareKeys (renderTrailing fs) = renderTrailing fs := by
    rw [quoteBareKeys]
    refine quoteBareKeysGo_chain _ _ ?_
    rw [renderTrailing]
    exact chain_delim_T fs hne h
  have h4 : fixSingleQuotes (renderTrailing fs) = renderTrailing fs := by
    rw [fixSingleQuotes]
    refine fixSingleQuotesGo_chain _ _ ?_
    rw [renderTrailing]
    exact chain_colon_T fs hne h [',', rb]
      (List.chain'_cons.mpr ⟨fun hc => absurd hc (by decide), List.chain'_singleton rb⟩)
  have h5 : fixTrailingCommas (renderTrailing fs) = render (JVal.obj fs) := by
    rw [fixTrailingCommas, renderTrailing]
    have hlen : (lb :: renderFields fs).length + 1 ≤
        (lb :: (renderFields fs ++ [',', rb])).length := by
      simp
    rw [show lb :: (renderFields fs ++ [',', rb]) =
      (lb :: renderFields fs) ++ [',', rb] from rfl] at hlen ⊢
    rw [fixTrailingCommasGo_strip (lb :: renderFields fs) (chain_comma_head fs h) _ hlen]
    rw [show render (JVal.obj fs) = lb :: (renderFields fs ++ [rb]) from rfl]
    simp
  have h6 : fixMissingValueQuotes (render (JVal.obj fs)) = render (JVal.obj fs) := by
    rw [fixMissingValueQuotes]
    refine fixMissingValueQuotesGo_chain _ _ ?_
    rw [show render (JVal.obj fs) = lb :: (renderFields fs ++ [rb]) from rfl]
    exact chain_colon_T fs hne h [rb] (List.chain'_singleton rb)
  rw [aggressiveClean, h1, h2, h3, h4, h5, h6]

/-- C5 (amended): for a reply that is the rendering of a flat non-empty object
with letter keys, letter-string or non-negative-integer values, and a single
trailing comma just before the closing brace, the cleanup succeeds: the
stage-3 trailing-comma replacement of groq.ts line 323 removes the comma and
the returned string parses to the object.  (For general such replies this
fails: see the counterexample, where the stage-2 replacement of groq.ts line
301 truncates the text before the trailing-comma fix ever runs.) -/
theorem c5_amended (fs : List (List Char × JVal)) (hne : fs ≠ [])
    (h : c5SafeFields fs = true) :
    cleanupJson (renderTrailing fs) = Except.ok (render (JVal.obj fs)) ∧
    parseJson (render (JVal.obj fs)) = some (JVal.obj fs) := by
  have hp1 : parseJson (renderTrailing fs) = none := parseJson_renderTrailing fs hne
  have hsf : stripFences (renderTrailing fs) = renderTrailing fs := by
    refine stripFences_none _ ?_
    intro hmem
    rw [renderTrailing] at hmem
    rcases List.mem_cons.mp hmem with h1 | h1
    · exact absurd h1 (by decide)
    · rcases List.mem_append.mp h1 with h2 | h2
      · exact absurd rfl (c5mem_facts bq (c5_render_mem fs h bq h2)).2.2.1
      · rcases List.mem_cons.mp h2 with h3 | h3
        · exact absurd h3 (by decide)
        · rw [List.mem_singleton] at h3
          exact absurd h3 (by decide)
  have hsb : stripBeforeBrace (renderTrailing fs) = renderTrailing fs := by
    rw [renderTrailing]
    exact stripBeforeBrace_head_lb _
  have hsa : stripAfterBrace (renderTrailing fs) = renderTrailing fs := by
    rw [renderTrailing, show lb :: (renderFields fs ++ [',', rb]) =
      (lb :: (renderFields fs ++ [','])) ++ [rb] by simp]
    refine stripAfterBrace_clean _ ?_
    intro c hc
    rcases List.mem_cons.mp hc with h1 | h1
    · subst h1; exact ⟨by decide, by decide⟩
    · rcases List.mem_append.mp h1 with h2 | h2
      · obtain ⟨_, _, _, b4, b5, _, _⟩ := c5mem_facts c (c5_render_mem fs h c h2)
        exact ⟨b4, b5⟩
      · rw [List.mem_singleton] at h2
        subst h2
        exact ⟨by decide, by decide⟩
  have hsc : stripControl (renderTrailing fs) = renderTrailing fs := by
    refine stripControl_clean _ ?_
    intro c hc
    rw [renderTrailing] at hc
    rcases List.mem_cons.mp hc with h1 | h1
    · subst h1; decide
    · rcases List.mem_append.mp h1 with h2 | h2
      · exact (c5mem_facts c (c5_render_mem fs h c h2)).2.1
      · rcases List.mem_cons.mp h2 with h3 | h3
        · subst h3; decide
        · rw [List.mem_singleton] at h3; subst h3; decide
  have hex : extractBraces (renderTrailing fs) = some (renderTrailing fs) := by
    rw [renderTrailing, show lb :: (renderFields fs ++ [',', rb]) =
      lb :: ((renderFields fs ++ [',']) ++ [rb]) by simp]
    exact extractBraces_wrapped _
  have hag : parseJson (aggressiveClean (renderTrailing fs)) = some (JVal.obj fs) := by
    rw [aggressiveClean_renderTrailing fs hne h]
    exact parseJson_render _
  refine ⟨?_, parseJson_render _⟩
  rw [cleanupJson, hp1]
  simp only [hsf, hsb, hsa, hsc, hp1, hex, hag]

/-- Witness for c5_amended at the concrete reply \x7b"a":1,\x7d. -/
theorem c5_amended_witness :
    ([(['a'], JVal.num 1)] : List (List Char × JVal)) ≠ [] ∧
    c5SafeFields [(['a'], JVal.num 1)] = true ∧
    (cleanupJson (renderTrailing [(['a'], JVal.num 1)]) =
        Except.ok (render (JVal.obj [(['a'], JVal.num 1)])) ∧
      parseJson (render (JVal.obj [(['a'], JVal.num 1)])) =
        some (JVal.obj [(['a'], JVal.num 1)])) :=
  ⟨List.cons_ne_nil _ _, by decide,
    c5_amended [(['a'], JVal.num 1)] (List.cons_ne_nil _ _) (by decide)⟩

/-- C5 counterexample: the reply \x7b"a":\x7b\x7d,\x7d is valid JSON except
for a single trailing comma immediately before the closing brace, yet the
cleanup rejects it: the stage-2 replacement of groq.ts line 301 truncates the
text at the first closing brace (the inner empty object) because no `]`
follows it, so the trailing-comma replacement of line 323 never sees the
comma, and the call throws the invalid-JSON error instead of parsing. -/
theorem c5_counterexample :
    parseJson (render (JVal.obj [(['a'], JVal.obj [])])) =
      some (JVal.obj [(['a'], JVal.obj [])]) ∧
    cleanupJson (renderTrailing [(['a'], JVal.obj [])]) =
      Except.error (CleanErr.invalidJsonResponse [lb, '"', 'a', '"', ':', lb, rb]) := by
  have hre : render (JVal.obj [(['a'], JVal.obj [])]) =
      [lb, '"', 'a', '"', ':', lb, rb, rb] := by
    simp +decide [render, renderFields, escapeStr, escapeChar]
  have hrt : renderTrailing [(['a'], JVal.obj [])] =
      [lb, '"', 'a', '"', ':', lb, rb, ',', rb] := by
    simp +decide [renderTrailing, render, renderFields, escapeStr, escapeChar]
  rw [hre, hrt]
  exact ⟨rfl, rfl⟩
